import Mathlib

/-!
Verification of the duty-assignment engine of `faculty_duty_app.py`.

The development shallowly embeds the computational core of the application:

* the heuristic solver `generate_assignments_heuristic` (unit catalog,
  availability test, backtracking search over unit combinations, greedy
  fallback with underfilled-slot reporting),
* the pre-solver feasibility diagnostics block of the Duty Assignment
  section (global / per-slot / per-day capacity checks and the decision
  to stop or to run the solver), and
* the post-hoc validator `validate_assignment_constraints`.

Dates are modelled as opaque identifiers (`Nat`): the engine only ever
compares dates for equality.  Python sets are modelled as duplicate-free
lists with membership-respecting insert and remove; Python's stable
`sorted` is modelled by a stable insertion sort.  Error messages are
modelled by inductive message values carrying the same data as the
formatted strings of the source.
-/

namespace ExamDuty

abbrev Faculty := String
abbrev Date := Nat

inductive Shift
| firstHalf
| secondHalf
deriving DecidableEq, Repr

/-- The other half of the same day. -/
def Shift.other : Shift → Shift
| .firstHalf => .secondHalf
| .secondHalf => .firstHalf

structure ExamDay where
  date : Date
  firstHalf : Nat
  secondHalf : Nat
deriving DecidableEq, Repr

/-- Required head count of an exam day for a given half, `day[label]`. -/
def ExamDay.req (day : ExamDay) : Shift → Nat
| .firstHalf => day.firstHalf
| .secondHalf => day.secondHalf

structure Slot where
  date : Date
  shift : Shift
  required : Nat
deriving DecidableEq, Repr

/-- One output row of the assignment table. -/
structure Row where
  date : Date
  shift : Shift
  faculty : Faculty
deriving DecidableEq, Repr

/-- One entry of the internal `assignment` list of the solver:
the slot together with the flattened member list of the units chosen for it. -/
structure SlotRecord where
  date : Date
  shift : Shift
  faculty : List Faculty
deriving DecidableEq, Repr

structure UnavailEntry where
  firstHalf : List Date
  secondHalf : List Date
deriving DecidableEq, Repr

/-- `unavailability[f]['first_half' / 'second_half']`. -/
def UnavailEntry.dates (e : UnavailEntry) : Shift → List Date
| .firstHalf => e.firstHalf
| .secondHalf => e.secondHalf

structure Underfilled where
  date : Date
  shift : Shift
  required : Nat
  assigned : Nat
deriving DecidableEq, Repr

/-- First-match association-list lookup, modelling Python dict lookup
(the app builds its dicts with unique keys). -/
def lookupPairs {β : Type} : List (Faculty × β) → Faculty → Option β
| [], _ => none
| (g, b) :: rest, f => if g = f then some b else lookupPairs rest f

/-- Inputs of the engine: roster, quotas, unavailability, groups, schedule. -/
structure Inputs where
  facultyList : List Faculty
  maxDuties : List (Faculty × Nat)
  unavail : List (Faculty × UnavailEntry)
  groups : List (List Faculty)
  schedule : List ExamDay

/-- `int(max_duties_dict.get(f, 0))`. -/
def maxOf (I : Inputs) (f : Faculty) : Nat := (lookupPairs I.maxDuties f).getD 0

/-- `unavailability[f][label]`; the defaultdict yields empty sets for
faculty without an entry. -/
def unavailOf (I : Inputs) (f : Faculty) (s : Shift) : List Date :=
  ((lookupPairs I.unavail f).getD ⟨[], []⟩).dates s

/- Stable insertion sort with a boolean comparator, modelling Python's
stable `sorted`. -/

def orderedInsertB {α : Type} (le : α → α → Bool) (x : α) : List α → List α
| [] => [x]
| y :: l => if le x y then x :: y :: l else y :: orderedInsertB le x l

def insSortB {α : Type} (le : α → α → Bool) : List α → List α
| [] => []
| x :: l => orderedInsertB le x (insSortB le l)

/-- Lexicographic comparison of code-point sequences, as Python compares
strings. -/
def charListLe : List Char → List Char → Bool
| [], _ => true
| _ :: _, [] => false
| c :: cs, d :: ds =>
  if c.toNat < d.toNat then true
  else if d.toNat < c.toNat then false
  else charListLe cs ds

def strLe (a b : Faculty) : Bool := charListLe a.data b.data

/-- `tuple(sorted(group))`. -/
def sortFaculty (g : List Faculty) : List Faculty := insSortB strLe g

/-- An assignable unit: a whole group (sorted) or a singleton. -/
abbrev AssignUnit := List Faculty

/-- `set(f for g in faculty_groups for f in g)` (membership only). -/
def groupedSet (I : Inputs) : List Faculty := I.groups.flatMap id

/-- `[f for f in faculty_list if f not in grouped]`. -/
def singletons (I : Inputs) : List Faculty :=
  I.facultyList.filter (fun f => decide (f ∉ groupedSet I))

/-- `assign_units = all_groups + [(f,) for f in singletons]`. -/
def assignUnits (I : Inputs) : List AssignUnit :=
  I.groups.map sortFaculty ++ (singletons I).map (fun f => [f])

/-- `flat = [f for u in units for f in u]`. -/
def flatMembers : List AssignUnit → List Faculty
| [] => []
| u :: us => u ++ flatMembers us

/-- Mutable state of the search: `duty_counts`, `assigned_slots`,
`assignment`. -/
@[ext] structure SearchState where
  duty : Faculty → Nat
  assigned : List (Date × Shift × Faculty)
  assignment : List SlotRecord

/-- Python `set.add`: no-op when already present. -/
def setInsert {α : Type} [DecidableEq α] (x : α) (l : List α) : List α :=
  if x ∈ l then l else x :: l

/-- Python `set.remove` on a duplicate-free list. -/
def setRemove {α : Type} [DecidableEq α] (x : α) (l : List α) : List α :=
  l.filter (fun y => decide (y ≠ x))

/-- One member of `assign_unit`: bump the duty count, mark the slot
occupied. -/
def assignMember (d : Date) (s : Shift) (st : SearchState) (f : Faculty) : SearchState :=
  { st with
    duty := fun g => if g = f then st.duty f + 1 else st.duty g
    assigned := setInsert (d, s, f) st.assigned }

/-- One member of `unassign_unit`. -/
def unassignMember (d : Date) (s : Shift) (st : SearchState) (f : Faculty) : SearchState :=
  { st with
    duty := fun g => if g = f then st.duty f - 1 else st.duty g
    assigned := setRemove (d, s, f) st.assigned }

/-- `assign_unit(unit, date, shift, duty_counts, assigned_slots)`. -/
def assignUnit (d : Date) (s : Shift) (st : SearchState) (u : AssignUnit) : SearchState :=
  u.foldl (assignMember d s) st

/-- `unassign_unit(unit, date, shift, duty_counts, assigned_slots)`. -/
def unassignUnit (d : Date) (s : Shift) (st : SearchState) (u : AssignUnit) : SearchState :=
  u.foldl (unassignMember d s) st

/-- `unit_available`: every member is not unavailable for that date and
half, has remaining quota, and is not assigned to the other half of the
same date. -/
def unitAvailable (I : Inputs) (u : AssignUnit) (d : Date) (s : Shift)
    (st : SearchState) : Bool :=
  u.all fun f =>
    decide (d ∉ unavailOf I f s) &&
    decide (st.duty f < maxOf I f) &&
    decide ((d, s.other, f) ∉ st.assigned)

/-- `sum(duty_counts.get(f, 0) for f in u)`, the load-balancing sort key. -/
def unitLoad (st : SearchState) (u : AssignUnit) : Nat := (u.map st.duty).sum

/-- `sorted(available_units, key=lambda u: sum(duty_counts.get(f, 0) for f in u))`. -/
def sortUnitsByLoad (st : SearchState) (us : List AssignUnit) : List AssignUnit :=
  insSortB (fun u v => decide (unitLoad st u ≤ unitLoad st v)) us

/-- `[u for u in assign_units if unit_available(u, date, shift, ...)]`. -/
def availableUnits (I : Inputs) (d : Date) (s : Shift) (st : SearchState) :
    List AssignUnit :=
  (assignUnits I).filter (fun u => unitAvailable I u d s st)

/-- `itertools.combinations`, in the same enumeration order. -/
def combinations {α : Type} : Nat → List α → List (List α)
| 0, _ => [[]]
| _ + 1, [] => []
| n + 1, x :: xs => (combinations n xs).map (fun c => x :: c) ++ combinations (n + 1) xs

/-- Commit one candidate combination: assign every unit, then append the
slot record, as the loop body of `backtrack` does. -/
def commitUnits (d : Date) (s : Shift) (units : List AssignUnit)
    (st : SearchState) : SearchState :=
  let st1 := units.foldl (assignUnit d s) st
  { st1 with assignment := st1.assignment ++ [⟨d, s, flatMembers units⟩] }

/-- Undo a committed combination: `assignment.pop()` then unassign every
unit. -/
def rollbackUnits (d : Date) (s : Shift) (units : List AssignUnit)
    (st : SearchState) : SearchState :=
  let st1 := { st with assignment := st.assignment.dropLast }
  units.foldl (unassignUnit d s) st1

/-- The `for units in combinations(available_units, required)` loop of
`backtrack`: skip overlapping combinations, commit, recurse via `next`,
and on failure undo and try the next combination. -/
def goCombos (next : SearchState → Bool × SearchState) (d : Date) (s : Shift) :
    List (List AssignUnit) → SearchState → Bool × SearchState
| [], st => (false, st)
| units :: cs, st =>
  if (flatMembers units).Nodup then
    let p := next (commitUnits d s units st)
    if p.1 then p else goCombos next d s cs (rollbackUnits d s units p.2)
  else goCombos next d s cs st

/-- `backtrack(slot_idx, slots, duty_counts, assigned_slots, assignment)`,
with the slot index replaced by the list of remaining slots. -/
def backtrack (I : Inputs) : List Slot → SearchState → Bool × SearchState
| [], st => (true, st)
| slot :: rest, st =>
  goCombos (fun st1 => backtrack I rest st1) slot.date slot.shift
    (combinations slot.required
      (sortUnitsByLoad st (availableUnits I slot.date slot.shift st))) st

/-- The slots contributed by one exam day: each half with `required > 0`,
First Half before Second Half. -/
def daySlots (day : ExamDay) : List Slot :=
  (if day.firstHalf > 0 then [⟨day.date, Shift.firstHalf, day.firstHalf⟩] else []) ++
  (if day.secondHalf > 0 then [⟨day.date, Shift.secondHalf, day.secondHalf⟩] else [])

/-- The slot list: `(date, shift, required)` for every half with
`required > 0`, in schedule order. -/
def slotsOf (I : Inputs) : List Slot :=
  I.schedule.flatMap daySlots

/-- Fresh search state: all duty counts zero, nothing assigned. -/
def zeroState : SearchState := ⟨fun _ => 0, [], []⟩

/-- `slot_difficulty` evaluated at the untouched temp state. -/
def slotDifficulty (I : Inputs) (slot : Slot) : Nat :=
  (availableUnits I slot.date slot.shift zeroState).length

/-- `slots_sorted = sorted(slots, key=slot_difficulty)` (stable). -/
def slotsSorted (I : Inputs) : List Slot :=
  insSortB (fun a b => decide (slotDifficulty I a ≤ slotDifficulty I b)) (slotsOf I)

/-- The solver-internal pre-check: some slot has fewer available units
(at the fresh temp state) than required. -/
def gateInfeasible (I : Inputs) : Bool :=
  (slotsOf I).any fun slot =>
    decide ((availableUnits I slot.date slot.shift zeroState).length < slot.required)

/-- The greedy selection loop: take units in order while fewer than
`required` are chosen and the unit shares no member with `used`. -/
def chooseUnits (required : Nat) : List AssignUnit → List AssignUnit → List Faculty → List AssignUnit
| [], chosen, _ => chosen
| u :: rest, chosen, used =>
  if required ≤ chosen.length then chosen
  else if u.any (fun f => decide (f ∈ used)) then chooseUnits required rest chosen used
  else chooseUnits required rest (chosen ++ [u]) (used ++ u)

/-- The greedy fallback pass over the difficulty-sorted slots; returns the
final state (whose `assignment` holds one record per processed slot) and
the accumulated underfilled-slot list. -/
def greedyGo (I : Inputs) : List Slot → SearchState → List Underfilled →
    SearchState × List Underfilled
| [], st, uf => (st, uf)
| slot :: rest, st, uf =>
  let avail := sortUnitsByLoad st (availableUnits I slot.date slot.shift st)
  let chosen := chooseUnits slot.required avail [] []
  let uf1 :=
    if chosen.length < slot.required then
      uf ++ [⟨slot.date, slot.shift, slot.required, chosen.length⟩]
    else uf
  greedyGo I rest (commitUnits slot.date slot.shift chosen st) uf1

/-- Flatten the internal slot records into output rows, in record order. -/
def rowsOfRecords : List SlotRecord → List Row
| [] => []
| rec :: rest => rec.faculty.map (fun f => ⟨rec.date, rec.shift, f⟩) ++ rowsOfRecords rest

/-- `generate_assignments_heuristic`: internal feasibility gate, then the
backtracking solver, then the greedy fallback. `none` models `return None`. -/
def generateAssignments (I : Inputs) : Option (List Row × List Underfilled) :=
  if gateInfeasible I then none
  else
    match backtrack I (slotsSorted I) zeroState with
    | (true, st) => some (rowsOfRecords st.assignment, [])
    | (false, _) =>
      let r := greedyGo I (slotsSorted I) zeroState []
      if r.1.assignment.isEmpty then none
      else some (rowsOfRecords r.1.assignment, r.2)

/- The pre-solver feasibility diagnostics of the Duty Assignment section. -/

/-- `total_required = sum(day['first_half'] + day['second_half'] for day in exam_schedule)`. -/
def totalRequired (I : Inputs) : Nat :=
  (I.schedule.map (fun day => day.firstHalf + day.secondHalf)).sum

/-- `total_available = sum(int(max_duties_dict.get(f, 0)) for f in faculty_list)`. -/
def totalAvailable (I : Inputs) : Nat :=
  (I.facultyList.map (fun f => maxOf I f)).sum

/-- Faculty counted by the per-slot check: not unavailable for the slot
and with a positive quota. -/
def slotAvailFaculty (I : Inputs) (d : Date) (s : Shift) : List Faculty :=
  I.facultyList.filter fun f =>
    decide (d ∉ unavailOf I f s) && decide (0 < maxOf I f)

/-- Faculty counted by the per-day check: unavailable for neither half and
with a positive quota. -/
def dayAvailFaculty (I : Inputs) (d : Date) : List Faculty :=
  I.facultyList.filter fun f =>
    decide (d ∉ unavailOf I f Shift.firstHalf) &&
    decide (d ∉ unavailOf I f Shift.secondHalf) && decide (0 < maxOf I f)

/-- The `slot_problems` flag. -/
def slotProblems (I : Inputs) : Bool :=
  I.schedule.any fun day =>
    [Shift.firstHalf, Shift.secondHalf].any fun s =>
      decide ((slotAvailFaculty I day.date s).length < day.req s)

/-- The `day_problems` flag. -/
def dayProblems (I : Inputs) : Bool :=
  I.schedule.any fun day =>
    decide ((dayAvailFaculty I day.date).length < day.firstHalf + day.secondHalf)

/-- One rendered line of the diagnostics block, carrying the data the
formatted string carries. -/
inductive DiagLine
| totalRequiredLine (n : Nat)
| totalAvailableLine (n : Nat)
| slotLine (d : Date) (s : Shift) (required avail : Nat)
| slotWarn (d : Date) (s : Shift) (required avail : Nat)
| dayLine (d : Date) (requiredTotal avail : Nat)
| dayErr (d : Date) (requiredTotal avail : Nat)
deriving DecidableEq, Repr

/-- The per-slot check loop: one line per (day, shift), plus a warning
line when the slot is short. -/
def slotDiag (I : Inputs) : List DiagLine :=
  I.schedule.flatMap fun day =>
    [Shift.firstHalf, Shift.secondHalf].flatMap fun s =>
      let required := day.req s
      let avail := (slotAvailFaculty I day.date s).length
      DiagLine.slotLine day.date s required avail ::
        (if avail < required then [DiagLine.slotWarn day.date s required avail] else [])

/-- The per-day check loop. -/
def dayDiag (I : Inputs) : List DiagLine :=
  I.schedule.flatMap fun day =>
    let requiredTotal := day.firstHalf + day.secondHalf
    let avail := (dayAvailFaculty I day.date).length
    DiagLine.dayLine day.date requiredTotal avail ::
      (if requiredTotal > avail then [DiagLine.dayErr day.date requiredTotal avail] else [])

/-- All diagnostic lines, in emission order: the global totals, then the
per-slot lines, then the per-day lines. -/
def diagMessages (I : Inputs) : List DiagLine :=
  [DiagLine.totalRequiredLine (totalRequired I),
   DiagLine.totalAvailableLine (totalAvailable I)] ++ slotDiag I ++ dayDiag I

inductive FeasDecision
| globalInfeasible
| slotDayInfeasible
| proceed
deriving DecidableEq, Repr

/-- The decision of the `if / elif / else` chain closing the diagnostics
block. -/
def feasDecision (I : Inputs) : FeasDecision :=
  if totalAvailable I < totalRequired I then .globalInfeasible
  else if slotProblems I || dayProblems I then .slotDayInfeasible
  else .proceed

inductive WorkflowResult
| stoppedInfeasible (msgs : List DiagLine) (d : FeasDecision)
| solverRan (result : Option (List Row × List Underfilled))

/-- The Duty Assignment control flow around the solver: on an infeasible
decision the app calls `st.stop()` and the solver is never reached. -/
def dutyAssignmentWorkflow (I : Inputs) : WorkflowResult :=
  match feasDecision I with
  | .proceed => .solverRan (generateAssignments I)
  | d => .stoppedInfeasible (diagMessages I) d

/- The validator `validate_assignment_constraints`. -/

/-- One violation message, carrying the data the formatted string carries. -/
inductive VError
| unavailConflict (f : Faculty) (d : Date) (s : Shift)
| maxExceeded (f : Faculty) (count maxAllowed : Nat)
| groupSplit (g : List Faculty) (d : Date) (s : Shift)
| countMismatch (assigned required : Nat) (d : Date) (s : Shift)
| doubleBooked (f : Faculty) (d : Date)
deriving DecidableEq, Repr

/-- Number of rows naming faculty `f`. -/
def rowCountF (rows : List Row) (f : Faculty) : Nat :=
  (rows.filter (fun r => decide (r.faculty = f))).length

/-- `df[(df['Date'] == date) & (df['Shift'] == shift)]['Faculty'].tolist()`. -/
def facultyAt (rows : List Row) (d : Date) (s : Shift) : List Faculty :=
  (rows.filter (fun r => decide (r.date = d) && decide (r.shift = s))).map (·.faculty)

/-- Check 1: unavailability conflicts (only for faculty with an
unavailability entry). -/
def checkUnavail (rows : List Row) (uv : List (Faculty × UnavailEntry)) : List VError :=
  rows.filterMap fun r =>
    match lookupPairs uv r.faculty with
    | none => none
    | some e =>
      if r.date ∈ e.dates r.shift then some (.unavailConflict r.faculty r.date r.shift)
      else none

/-- Check 2: quota overruns; a faculty missing from the dict has an
infinite limit and is never flagged. -/
def checkMax (rows : List Row) (fl : List Faculty) (md : List (Faculty × Nat)) : List VError :=
  fl.filterMap fun f =>
    match lookupPairs md f with
    | none => none
    | some m => if m < rowCountF rows f then some (.maxExceeded f (rowCountF rows f) m) else none

/-- Check 3: group cohesion, reported once per (group, row) with partial
presence at that row's slot, as the nested loops do. -/
def checkGroups (rows : List Row) (gs : List (List Faculty)) : List VError :=
  gs.flatMap fun g =>
    rows.filterMap fun r =>
      let assigned := facultyAt rows r.date r.shift
      if g.any (fun f => decide (f ∈ assigned)) && !(g.all (fun f => decide (f ∈ assigned)))
      then some (.groupSplit g r.date r.shift)
      else none

/-- Check 4: assigned-row count versus required, for every scheduled slot. -/
def checkRequired (rows : List Row) (sch : List ExamDay) : List VError :=
  sch.flatMap fun day =>
    [Shift.firstHalf, Shift.secondHalf].filterMap fun s =>
      let assigned := (rows.filter (fun r => decide (r.date = day.date) && decide (r.shift = s))).length
      if assigned ≠ day.req s then some (.countMismatch assigned (day.req s) day.date s)
      else none

/-- The dates of faculty `f`'s rows (with multiplicity). -/
def datesOfF (rows : List Row) (f : Faculty) : List Date :=
  (rows.filter (fun r => decide (r.faculty = f))).map (·.date)

/-- Number of rows naming faculty `f` on date `d` (either half, with
multiplicity). -/
def rowCountOn (rows : List Row) (f : Faculty) (d : Date) : Nat :=
  (rows.filter (fun r => decide (r.faculty = f) && decide (r.date = d))).length

/-- Check 5: one message per (faculty, date) with more than one row. -/
def checkDouble (rows : List Row) (fl : List Faculty) : List VError :=
  fl.flatMap fun f =>
    ((datesOfF rows f).dedup.filter (fun d => decide (1 < (datesOfF rows f).count d))).map
      (fun d => .doubleBooked f d)

/-- The separately returned `same_day_double` pairs. -/
def sameDayDoubleList (rows : List Row) (fl : List Faculty) : List (Faculty × Date) :=
  fl.flatMap fun f =>
    ((datesOfF rows f).dedup.filter (fun d => decide (1 < (datesOfF rows f).count d))).map
      (fun d => (f, d))

structure ValidationResult where
  isValid : Bool
  errors : List VError
  sameDayDouble : List (Faculty × Date)
deriving DecidableEq, Repr

/-- `validate_assignment_constraints`: all five checks always run, the
messages accumulate in check order, and `is_valid` is exactly "no message
was appended". -/
def validateAssignmentConstraints (rows : List Row) (fl : List Faculty)
    (md : List (Faculty × Nat)) (uv : List (Faculty × UnavailEntry))
    (gs : List (List Faculty)) (sch : List ExamDay) : ValidationResult :=
  let errors := checkUnavail rows uv ++ checkMax rows fl md ++ checkGroups rows gs ++
    checkRequired rows sch ++ checkDouble rows fl
  ⟨errors.isEmpty, errors, sameDayDoubleList rows fl⟩

/- Derived notions used to state the verified properties. -/

/-- Number of occurrences of `f` in a member list. -/
def occ (f : Faculty) (l : List Faculty) : Nat :=
  (l.filter (fun g => decide (g = f))).length

/-- Total number of occurrences of `f` across the slot records. -/
def recCount (f : Faculty) (recs : List SlotRecord) : Nat :=
  (recs.map (fun rec => occ f rec.faculty)).sum

/-- The `(date, shift)` identity of a slot. -/
def slotKey (slot : Slot) : Date × Shift := (slot.date, slot.shift)

/-- The `(date, shift)` identity of a slot record. -/
def recKey (rec : SlotRecord) : Date × Shift := (rec.date, rec.shift)

/-- The `(date, shift)` identity of an occupied-slot triple. -/
def tripleKey (t : Date × Shift × Faculty) : Date × Shift := (t.1, t.2.1)

/-- The duty counter agrees with the accumulated slot records. -/
def DutyMatches (st : SearchState) : Prop :=
  ∀ f, st.duty f = recCount f st.assignment

/-- Every duty counter is within the quota. -/
def DutyBounded (I : Inputs) (st : SearchState) : Prop :=
  ∀ f, st.duty f ≤ maxOf I f

/-- Every accumulated record is the flattening of catalog units. -/
def RecordsUnits (I : Inputs) (st : SearchState) : Prop :=
  ∀ rec ∈ st.assignment, ∃ us, (∀ u ∈ us, u ∈ assignUnits I) ∧ rec.faculty = flatMembers us

/-- Every accumulated record has a duplicate-free member list. -/
def RecordsNodup (st : SearchState) : Prop :=
  ∀ rec ∈ st.assignment, rec.faculty.Nodup

/-- No faculty occupies both halves of the same date. -/
def NoBothHalves (A : List (Date × Shift × Faculty)) : Prop :=
  ∀ d f, ¬((d, Shift.firstHalf, f) ∈ A ∧ (d, Shift.secondHalf, f) ∈ A)

/-- The occupied-slot set and the record list describe the same rows. -/
def CorrState (st : SearchState) : Prop :=
  ∀ d s f, ((d, s, f) ∈ st.assigned ↔
    ∃ rec, rec ∈ st.assignment ∧ rec.date = d ∧ rec.shift = s ∧ f ∈ rec.faculty)

/-- No occupied-slot triple carries the key of one of the given slots. -/
def AssignedFresh (st : SearchState) (slots : List Slot) : Prop :=
  ∀ t ∈ st.assigned, tripleKey t ∉ slots.map slotKey

/-- No accumulated record carries the key of one of the given slots. -/
def RecordsFresh (st : SearchState) (slots : List Slot) : Prop :=
  ∀ rec ∈ st.assignment, recKey rec ∉ slots.map slotKey

/- Concrete inputs used to witness the verified properties. -/

/-- One day, one slot, one faculty member: the solver succeeds. -/
def inputsSolved : Inputs := ⟨["a"], [("a", 1)], [], [], [⟨0, 1, 0⟩]⟩

/-- One faculty member with quota 2 and both halves of one day required:
the internal gate passes but the search fails, so the greedy fallback runs. -/
def inputsFallback : Inputs := ⟨["a"], [("a", 2)], [], [], [⟨0, 1, 1⟩]⟩

/-- A grouped pair plus a singleton, one slot asking for two units. -/
def inputsGrouped : Inputs :=
  ⟨["a", "b", "c"], [("a", 1), ("b", 1), ("c", 1)], [], [["b", "a"]], [⟨0, 2, 0⟩]⟩

/-- Two faculty members, both halves of one day: the solver succeeds. -/
def inputsTwoHalves : Inputs := ⟨["a", "b"], [("a", 1), ("b", 1)], [], [], [⟨0, 1, 1⟩]⟩

/-- Required duties exceed the total quota. -/
def inputsOverCapacity : Inputs := ⟨["a"], [("a", 0)], [], [], [⟨0, 1, 0⟩]⟩

/-- Inputs for exercising `backtrack` on an explicitly given slot list. -/
def inputsPlain : Inputs := ⟨["a"], [("a", 1)], [], [], []⟩

/-- Slot list whose second slot cannot be filled once the first is. -/
def slotsUndo : List Slot := [⟨0, Shift.firstHalf, 1⟩, ⟨1, Shift.firstHalf, 1⟩]

/-- An entry state that already holds the triple the first slot commits:
the set-insert is then a no-op while the undo removes the triple. -/
def stateDirty : SearchState := ⟨fun _ => 0, [(0, Shift.firstHalf, "a")], []⟩

/-- Inputs for exercising `backtrack` where the search fails cleanly. -/
def inputsUndoOk : Inputs := ⟨["a"], [("a", 2)], [], [], []⟩

/-- Two slots the second of which asks for five units. -/
def slotsUndoOk : List Slot := [⟨0, Shift.firstHalf, 1⟩, ⟨1, Shift.firstHalf, 5⟩]

/-- Duplicate rows in the same half: flagged as double-booked although the
faculty member never serves the second half. -/
def rowsSameHalfTwice : List Row := [⟨0, Shift.firstHalf, "a"⟩, ⟨0, Shift.firstHalf, "a"⟩]

/-- Rows with faculty `a` on both halves of date 0. -/
def rowsBothHalves : List Row := [⟨0, Shift.firstHalf, "a"⟩, ⟨0, Shift.secondHalf, "a"⟩]

end ExamDuty

namespace ExamDuty

/-! Basic counting and membership lemmas. -/

theorem occ_nil (f : Faculty) : occ f [] = 0 := rfl

theorem occ_cons (f g : Faculty) (l : List Faculty) :
    occ f (g :: l) = occ f l + (if g = f then 1 else 0) := by
  by_cases h : g = f <;> simp [occ, List.filter_cons, h, Nat.add_comm]

theorem occ_append (f : Faculty) (l₁ l₂ : List Faculty) :
    occ f (l₁ ++ l₂) = occ f l₁ + occ f l₂ := by
  simp [occ, List.filter_append]

theorem occ_eq_zero_of_not_mem {f : Faculty} {l : List Faculty} (h : f ∉ l) :
    occ f l = 0 := by
  simp only [occ, List.length_eq_zero, List.filter_eq_nil_iff]
  intro a ha
  simp only [decide_eq_true_eq]
  rintro rfl
  exact h ha

theorem occ_le_one_of_nodup {f : Faculty} {l : List Faculty} (h : l.Nodup) :
    occ f l ≤ 1 := by
  induction l with
  | nil => simp [occ_nil]
  | cons g t ih =>
    rcases List.nodup_cons.mp h with ⟨hg, ht⟩
    by_cases hgf : g = f
    · subst hgf
      rw [occ_cons, occ_eq_zero_of_not_mem hg]
      simp
    · rw [occ_cons]
      simp [hgf, ih ht]

theorem flatMembers_append (us vs : List AssignUnit) :
    flatMembers (us ++ vs) = flatMembers us ++ flatMembers vs := by
  induction us with
  | nil => simp [flatMembers]
  | cons u us ih => simp [flatMembers, ih]

theorem mem_flatMembers (f : Faculty) (us : List AssignUnit) :
    f ∈ flatMembers us ↔ ∃ u ∈ us, f ∈ u := by
  induction us with
  | nil => simp [flatMembers]
  | cons u us ih => simp [flatMembers, ih]

theorem setInsert_mem {α : Type} [DecidableEq α] (x y : α) (l : List α) :
    x ∈ setInsert y l ↔ x = y ∨ x ∈ l := by
  by_cases h : y ∈ l <;> simp only [setInsert, h, if_true, if_false, List.mem_cons]
  constructor
  · exact Or.inr
  · rintro (rfl | hx)
    · exact h
    · exact hx

theorem setInsert_of_not_mem {α : Type} [DecidableEq α] {y : α} {l : List α}
    (h : y ∉ l) : setInsert y l = y :: l := by
  simp [setInsert, h]

theorem setRemove_of_not_mem {α : Type} [DecidableEq α] {y : α} {l : List α}
    (h : y ∉ l) : setRemove y l = l := by
  apply List.filter_eq_self.mpr
  intro a ha
  simp only [decide_eq_true_eq]
  rintro rfl
  exact h ha

theorem setRemove_append {α : Type} [DecidableEq α] (y : α) (l₁ l₂ : List α) :
    setRemove y (l₁ ++ l₂) = setRemove y l₁ ++ setRemove y l₂ := by
  simp [setRemove, List.filter_append]

/-! Arithmetic of the member-level fold underlying assign and unassign. -/

theorem assignFold_duty (d : Date) (s : Shift) :
    ∀ (l : List Faculty) (st : SearchState) (g : Faculty),
      (l.foldl (assignMember d s) st).duty g = st.duty g + occ g l := by
  intro l
  induction l with
  | nil => intro st g; simp [occ_nil]
  | cons f t ih =>
    intro st g
    rw [List.foldl_cons, ih, occ_cons]
    by_cases h : g = f
    · subst h; simp [assignMember]; omega
    · have h' : f ≠ g := fun e => h e.symm
      simp [assignMember, h, h']

theorem assignFold_assignment (d : Date) (s : Shift) :
    ∀ (l : List Faculty) (st : SearchState),
      (l.foldl (assignMember d s) st).assignment = st.assignment := by
  intro l
  induction l with
  | nil => intro st; rfl
  | cons f t ih => intro st; rw [List.foldl_cons, ih]; rfl

theorem assignFold_assigned_mem (d : Date) (s : Shift) :
    ∀ (l : List Faculty) (st : SearchState) (x : Date × Shift × Faculty),
      x ∈ (l.foldl (assignMember d s) st).assigned ↔
        x ∈ st.assigned ∨ ∃ f ∈ l, x = (d, s, f) := by
  intro l
  induction l with
  | nil => intro st x; simp
  | cons f t ih =>
    intro st x
    rw [List.foldl_cons, ih]
    simp only [assignMember, setInsert_mem, List.mem_cons]
    constructor
    · rintro ((rfl | hx) | ⟨g, hg, rfl⟩)
      · exact Or.inr ⟨f, Or.inl rfl, rfl⟩
      · exact Or.inl hx
      · exact Or.inr ⟨g, Or.inr hg, rfl⟩
    · rintro (hx | ⟨g, (rfl | hg), rfl⟩)
      · exact Or.inl (Or.inr hx)
      · exact Or.inl (Or.inl rfl)
      · exact Or.inr ⟨g, hg, rfl⟩

theorem assignFold_assigned_fresh (d : Date) (s : Shift) :
    ∀ (l : List Faculty) (st : SearchState), l.Nodup →
      (∀ f ∈ l, (d, s, f) ∉ st.assigned) →
      (l.foldl (assignMember d s) st).assigned =
        l.reverse.map (fun f => (d, s, f)) ++ st.assigned := by
  intro l
  induction l with
  | nil => intro st _ _; simp
  | cons f t ih =>
    intro st hnd hfr
    rcases List.nodup_cons.mp hnd with ⟨hf, ht⟩
    rw [List.foldl_cons]
    have h1 : (assignMember d s st f).assigned = (d, s, f) :: st.assigned := by
      simp only [assignMember]
      exact setInsert_of_not_mem (hfr f (List.mem_cons_self f t))
    rw [ih (assignMember d s st f) ht]
    · rw [h1]
      simp [List.append_assoc]
    · intro g hg
      rw [h1]
      intro hmem
      rcases List.mem_cons.mp hmem with heq | htl
      · have hgf : g = f := by simpa using congrArg (fun t => t.2.2) heq
        exact hf (hgf ▸ hg)
      · exact hfr g (List.mem_cons_of_mem f hg) htl

theorem unassignFold_duty (d : Date) (s : Shift) :
    ∀ (l : List Faculty) (st : SearchState) (g : Faculty),
      (l.foldl (unassignMember d s) st).duty g = st.duty g - occ g l := by
  intro l
  induction l with
  | nil => intro st g; simp [occ_nil]
  | cons f t ih =>
    intro st g
    rw [List.foldl_cons, ih, occ_cons]
    by_cases h : g = f
    · subst h; simp [unassignMember]; omega
    · have h' : f ≠ g := fun e => h e.symm
      simp [unassignMember, h, h']

theorem unassignFold_assignment (d : Date) (s : Shift) :
    ∀ (l : List Faculty) (st : SearchState),
      (l.foldl (unassignMember d s) st).assignment = st.assignment := by
  intro l
  induction l with
  | nil => intro st; rfl
  | cons f t ih => intro st; rw [List.foldl_cons, ih]; rfl

theorem unassignFold_assigned_restore (d : Date) (s : Shift) :
    ∀ (l : List Faculty) (A : List (Date × Shift × Faculty)) (st : SearchState),
      l.Nodup → (∀ f ∈ l, (d, s, f) ∉ A) →
      st.assigned = l.reverse.map (fun f => (d, s, f)) ++ A →
      (l.foldl (unassignMember d s) st).assigned = A := by
  intro l
  induction l with
  | nil => intro A st _ _ h; simpa using h
  | cons f t ih =>
    intro A st hnd hfr hshape
    rcases List.nodup_cons.mp hnd with ⟨hf, ht⟩
    rw [List.foldl_cons]
    apply ih A (unassignMember d s st f) ht
    · intro g hg; exact hfr g (List.mem_cons_of_mem f hg)
    · have h1 : (unassignMember d s st f).assigned = setRemove (d, s, f) st.assigned := rfl
      have h2 : setRemove (d, s, f) (t.reverse.map fun g => (d, s, g)) =
          t.reverse.map fun g => (d, s, g) := by
        apply setRemove_of_not_mem
        simp only [List.mem_map, List.mem_reverse, Prod.mk.injEq, not_exists, not_and]
        intro g hg h0 h0'
        intro hgf
        exact hf (hgf ▸ hg)
      have h3 : setRemove ((d, s, f) : Date × Shift × Faculty)
          (List.map (fun g => ((d, s, g) : Date × Shift × Faculty)) [f]) = [] := by
        simp [setRemove]
      have h4 : setRemove (d, s, f) A = A :=
        setRemove_of_not_mem (hfr f (List.mem_cons_self f t))
      rw [h1, hshape, List.reverse_cons, List.map_append, setRemove_append,
        setRemove_append, h2, h3, h4]
      simp

/-! Bridging the unit-level folds to the member-level folds. -/

theorem foldl_assignUnit_eq (d : Date) (s : Shift) :
    ∀ (units : List AssignUnit) (st : SearchState),
      units.foldl (assignUnit d s) st = (flatMembers units).foldl (assignMember d s) st := by
  intro units
  induction units with
  | nil => intro st; rfl
  | cons u us ih =>
    intro st
    rw [List.foldl_cons, ih]
    show (flatMembers us).foldl _ (u.foldl _ st) = _
    rw [show flatMembers (u :: us) = u ++ flatMembers us from rfl, List.foldl_append]

theorem foldl_unassignUnit_eq (d : Date) (s : Shift) :
    ∀ (units : List AssignUnit) (st : SearchState),
      units.foldl (unassignUnit d s) st = (flatMembers units).foldl (unassignMember d s) st := by
  intro units
  induction units with
  | nil => intro st; rfl
  | cons u us ih =>
    intro st
    rw [List.foldl_cons, ih]
    show (flatMembers us).foldl _ (u.foldl _ st) = _
    rw [show flatMembers (u :: us) = u ++ flatMembers us from rfl, List.foldl_append]

/-! Commit and rollback of one candidate combination. -/

theorem commit_duty (d : Date) (s : Shift) (units : List AssignUnit)
    (st : SearchState) (g : Faculty) :
    (commitUnits d s units st).duty g = st.duty g + occ g (flatMembers units) := by
  simp [commitUnits, foldl_assignUnit_eq, assignFold_duty]

theorem commit_assignment (d : Date) (s : Shift) (units : List AssignUnit)
    (st : SearchState) :
    (commitUnits d s units st).assignment =
      st.assignment ++ [⟨d, s, flatMembers units⟩] := by
  simp [commitUnits, foldl_assignUnit_eq, assignFold_assignment]

theorem commit_assigned_mem (d : Date) (s : Shift) (units : List AssignUnit)
    (st : SearchState) (x : Date × Shift × Faculty) :
    x ∈ (commitUnits d s units st).assigned ↔
      x ∈ st.assigned ∨ ∃ f ∈ flatMembers units, x = (d, s, f) := by
  simp only [commitUnits, foldl_assignUnit_eq]
  exact assignFold_assigned_mem d s (flatMembers units) st x

theorem commit_assigned_fresh (d : Date) (s : Shift) (units : List AssignUnit)
    (st : SearchState) (hnd : (flatMembers units).Nodup)
    (hfr : ∀ f ∈ flatMembers units, (d, s, f) ∉ st.assigned) :
    (commitUnits d s units st).assigned =
      (flatMembers units).reverse.map (fun f => (d, s, f)) ++ st.assigned := by
  simp only [commitUnits, foldl_assignUnit_eq]
  exact assignFold_assigned_fresh d s (flatMembers units) st hnd hfr

theorem rollback_duty (d : Date) (s : Shift) (units : List AssignUnit)
    (st : SearchState) (g : Faculty) :
    (rollbackUnits d s units st).duty g = st.duty g - occ g (flatMembers units) := by
  simp [rollbackUnits, foldl_unassignUnit_eq, unassignFold_duty]

theorem rollback_assignment (d : Date) (s : Shift) (units : List AssignUnit)
    (st : SearchState) :
    (rollbackUnits d s units st).assignment = st.assignment.dropLast := by
  simp [rollbackUnits, foldl_unassignUnit_eq, unassignFold_assignment]

theorem rollback_commit_exact (d : Date) (s : Shift) (units : List AssignUnit)
    (st : SearchState) (hnd : (flatMembers units).Nodup)
    (hfr : ∀ f ∈ flatMembers units, (d, s, f) ∉ st.assigned) :
    rollbackUnits d s units (commitUnits d s units st) = st := by
  ext1
  · funext g
    rw [rollback_duty, commit_duty]
    omega
  · show (rollbackUnits d s units (commitUnits d s units st)).assigned = st.assigned
    simp only [rollbackUnits, foldl_unassignUnit_eq]
    apply unassignFold_assigned_restore d s (flatMembers units) st.assigned _ hnd hfr
    show (commitUnits d s units st).assigned = _
    exact commit_assigned_fresh d s units st hnd hfr
  · rw [rollback_assignment, commit_assignment, List.dropLast_concat]

/-! Permutation facts about the stable insertion sort. -/

theorem perm_orderedInsertB {α : Type} (le : α → α → Bool) (x : α) (l : List α) :
    List.Perm (orderedInsertB le x l) (x :: l) := by
  induction l with
  | nil => simp [orderedInsertB]
  | cons y t ih =>
    simp only [orderedInsertB]
    split
    · exact List.Perm.refl _
    · exact (List.Perm.cons y ih).trans (List.Perm.swap x y t)

theorem perm_insSortB {α : Type} (le : α → α → Bool) (l : List α) :
    List.Perm (insSortB le l) l := by
  induction l with
  | nil => exact List.Perm.refl _
  | cons x t ih => exact (perm_orderedInsertB le x (insSortB le t)).trans (List.Perm.cons x ih)

theorem mem_insSortB {α : Type} (le : α → α → Bool) (l : List α) (x : α) :
    x ∈ insSortB le l ↔ x ∈ l := (perm_insSortB le l).mem_iff

/-! Facts about the unit catalog, availability, and combinations. -/

theorem mem_availableUnits (I : Inputs) (d : Date) (s : Shift) (st : SearchState)
    (u : AssignUnit) :
    u ∈ availableUnits I d s st ↔ u ∈ assignUnits I ∧ unitAvailable I u d s st = true := by
  simp [availableUnits, List.mem_filter]

theorem unitAvailable_spec (I : Inputs) (u : AssignUnit) (d : Date) (s : Shift)
    (st : SearchState) :
    unitAvailable I u d s st = true ↔
      ∀ f ∈ u, d ∉ unavailOf I f s ∧ st.duty f < maxOf I f ∧ (d, s.other, f) ∉ st.assigned := by
  simp [unitAvailable, List.all_eq_true, Bool.and_eq_true, decide_eq_true_eq, and_assoc]

theorem mem_sortUnitsByLoad (st : SearchState) (us : List AssignUnit) (u : AssignUnit) :
    u ∈ sortUnitsByLoad st us ↔ u ∈ us := by
  simp only [sortUnitsByLoad]
  exact mem_insSortB _ us u

theorem combinations_subset {α : Type} :
    ∀ (l : List α) (n : Nat) (c : List α), c ∈ combinations n l → ∀ x ∈ c, x ∈ l := by
  intro l
  induction l with
  | nil =>
    intro n c hc x hx
    match n with
    | 0 =>
      simp only [combinations, List.mem_singleton] at hc
      subst hc
      exact absurd hx (List.not_mem_nil x)
    | n + 1 => simp [combinations] at hc
  | cons y ys ih =>
    intro n c hc x hx
    match n with
    | 0 =>
      simp only [combinations, List.mem_singleton] at hc
      subst hc
      exact absurd hx (List.not_mem_nil x)
    | n + 1 =>
      simp only [combinations, List.mem_append, List.mem_map] at hc
      rcases hc with ⟨c', hc', rfl⟩ | hc'
      · rcases List.mem_cons.mp hx with rfl | hx'
        · exact List.mem_cons_self _ _
        · exact List.mem_cons_of_mem _ (ih n c' hc' x hx')
      · exact List.mem_cons_of_mem _ (ih (n + 1) c hc' x hx)

/-! Unconditional restoration: a failing search restores the duty counters
and the record list exactly (the occupied-slot set is dealt with
separately, under freshness assumptions). -/

theorem goCombos_light (next : SearchState → Bool × SearchState) (d : Date) (s : Shift)
    (Hnext : ∀ st, (next st).1 = false →
      (next st).2.duty = st.duty ∧ (next st).2.assignment = st.assignment) :
    ∀ (cs : List (List AssignUnit)) (st : SearchState),
      (goCombos next d s cs st).1 = false →
      (goCombos next d s cs st).2.duty = st.duty ∧
        (goCombos next d s cs st).2.assignment = st.assignment := by
  intro cs
  induction cs with
  | nil => intro st _; exact ⟨rfl, rfl⟩
  | cons units cs ih =>
    intro st h
    simp only [goCombos] at h ⊢
    by_cases hnd : (flatMembers units).Nodup
    · rw [if_pos hnd] at h ⊢
      rcases hp : next (commitUnits d s units st) with ⟨b, st2⟩
      rw [hp] at h
      cases b
      · simp only [Bool.false_eq_true, if_false] at h ⊢
        have hl := Hnext (commitUnits d s units st) (by rw [hp])
        rw [hp] at hl
        obtain ⟨hd2, ha2⟩ := hl
        have hd3 : (rollbackUnits d s units st2).duty = st.duty := by
          funext g
          rw [rollback_duty, congrFun hd2 g, commit_duty]
          omega
        have ha3 : (rollbackUnits d s units st2).assignment = st.assignment := by
          rw [rollback_assignment, ha2, commit_assignment, List.dropLast_concat]
        obtain ⟨hd4, ha4⟩ := ih (rollbackUnits d s units st2) h
        exact ⟨hd4.trans hd3, ha4.trans ha3⟩
      · simp at h
    · rw [if_neg hnd] at h ⊢
      exact ih st h

theorem backtrack_light (I : Inputs) :
    ∀ (slots : List Slot) (st : SearchState), (backtrack I slots st).1 = false →
      (backtrack I slots st).2.duty = st.duty ∧
        (backtrack I slots st).2.assignment = st.assignment := by
  intro slots
  induction slots with
  | nil => intro st h; simp [backtrack] at h
  | cons slot rest ih =>
    intro st h
    simp only [backtrack] at h ⊢
    exact goCombos_light _ slot.date slot.shift (fun st1 h1 => ih st1 h1) _ st h

/-! Preservation of the main solver invariant. -/

/-- The invariant maintained by the search: duty counters agree with the
records, stay within quota, and every record is a duplicate-free
flattening of catalog units. -/
def SolverInv (I : Inputs) (st : SearchState) : Prop :=
  DutyMatches st ∧ DutyBounded I st ∧ RecordsUnits I st ∧ RecordsNodup st

theorem recCount_nil (f : Faculty) : recCount f [] = 0 := rfl

theorem recCount_append (f : Faculty) (r1 r2 : List SlotRecord) :
    recCount f (r1 ++ r2) = recCount f r1 + recCount f r2 := by
  simp [recCount]

theorem SolverInv_zero (I : Inputs) : SolverInv I zeroState := by
  refine ⟨fun f => rfl, fun f => Nat.zero_le _, ?_, ?_⟩
  · intro rec hrec; exact absurd hrec (List.not_mem_nil rec)
  · intro rec hrec; exact absurd hrec (List.not_mem_nil rec)

theorem SolverInv_congr (I : Inputs) {st st' : SearchState}
    (hd : st'.duty = st.duty) (ha : st'.assignment = st.assignment)
    (h : SolverInv I st) : SolverInv I st' := by
  obtain ⟨h1, h2, h3, h4⟩ := h
  refine ⟨?_, ?_, ?_, ?_⟩
  · intro f; rw [congrFun hd f, ha]; exact h1 f
  · intro f; rw [congrFun hd f]; exact h2 f
  · intro rec hrec; rw [ha] at hrec; exact h3 rec hrec
  · intro rec hrec; rw [ha] at hrec; exact h4 rec hrec

theorem SolverInv_commit (I : Inputs) (d : Date) (s : Shift)
    (units : List AssignUnit) (st : SearchState) (hinv : SolverInv I st)
    (hcat : ∀ u ∈ units, u ∈ assignUnits I)
    (hdlt : ∀ f ∈ flatMembers units, st.duty f < maxOf I f)
    (hnd : (flatMembers units).Nodup) :
    SolverInv I (commitUnits d s units st) := by
  obtain ⟨h1, h2, h3, h4⟩ := hinv
  refine ⟨?_, ?_, ?_, ?_⟩
  · intro f
    rw [commit_duty, commit_assignment, recCount_append, h1 f]
    simp [recCount]
  · intro f
    rw [commit_duty]
    by_cases hf : f ∈ flatMembers units
    · have := occ_le_one_of_nodup (f := f) hnd
      have := hdlt f hf
      omega
    · rw [occ_eq_zero_of_not_mem hf]
      simpa using h2 f
  · intro rec hrec
    rw [commit_assignment] at hrec
    rcases List.mem_append.mp hrec with hold | hnew
    · exact h3 rec hold
    · rw [List.mem_singleton] at hnew
      subst hnew
      exact ⟨units, hcat, rfl⟩
  · intro rec hrec
    rw [commit_assignment] at hrec
    rcases List.mem_append.mp hrec with hold | hnew
    · exact h4 rec hold
    · rw [List.mem_singleton] at hnew
      subst hnew
      exact hnd

theorem goCombos_P (I : Inputs) (next : SearchState → Bool × SearchState)
    (d : Date) (s : Shift)
    (Hlight : ∀ st, (next st).1 = false →
      (next st).2.duty = st.duty ∧ (next st).2.assignment = st.assignment)
    (HP : ∀ st, SolverInv I st → SolverInv I (next st).2) :
    ∀ (cs : List (List AssignUnit)) (st : SearchState), SolverInv I st →
      (∀ units ∈ cs, (∀ u ∈ units, u ∈ assignUnits I) ∧
        ∀ f ∈ flatMembers units, st.duty f < maxOf I f) →
      SolverInv I (goCombos next d s cs st).2 := by
  intro cs
  induction cs with
  | nil => intro st hinv _; exact hinv
  | cons units cs ih =>
    intro st hinv hcs
    simp only [goCombos]
    by_cases hnd : (flatMembers units).Nodup
    · rw [if_pos hnd]
      obtain ⟨hcat, hdlt⟩ := hcs units (List.mem_cons_self _ _)
      have hinv1 : SolverInv I (commitUnits d s units st) :=
        SolverInv_commit I d s units st hinv hcat hdlt hnd
      rcases hp : next (commitUnits d s units st) with ⟨b, st2⟩
      cases b
      · simp only [Bool.false_eq_true, if_false]
        have hl := Hlight (commitUnits d s units st) (by rw [hp])
        rw [hp] at hl
        obtain ⟨hd2, ha2⟩ := hl
        have hd3 : (rollbackUnits d s units st2).duty = st.duty := by
          funext g
          rw [rollback_duty, congrFun hd2 g, commit_duty]
          omega
        have ha3 : (rollbackUnits d s units st2).assignment = st.assignment := by
          rw [rollback_assignment, ha2, commit_assignment, List.dropLast_concat]
        apply ih (rollbackUnits d s units st2) (SolverInv_congr I hd3 ha3 hinv)
        intro units' hu'
        obtain ⟨hcat', hdlt'⟩ := hcs units' (List.mem_cons_of_mem _ hu')
        refine ⟨hcat', ?_⟩
        intro f hf
        rw [congrFun hd3 f]
        exact hdlt' f hf
      · simp only [if_true]
        have := HP (commitUnits d s units st) hinv1
        rw [hp] at this
        exact this
    · rw [if_neg hnd]
      apply ih st hinv
      intro units' hu'
      exact hcs units' (List.mem_cons_of_mem _ hu')

theorem backtrack_P (I : Inputs) :
    ∀ (slots : List Slot) (st : SearchState), SolverInv I st →
      SolverInv I (backtrack I slots st).2 := by
  intro slots
  induction slots with
  | nil => intro st hinv; exact hinv
  | cons slot rest ih =>
    intro st hinv
    simp only [backtrack]
    apply goCombos_P I _ slot.date slot.shift
      (fun st1 h1 => backtrack_light I rest st1 h1) (fun st1 h1 => ih st1 h1) _ st hinv
    intro units hu
    constructor
    · intro u hu'
      have hx := combinations_subset _ slot.required units hu u hu'
      rw [mem_sortUnitsByLoad] at hx
      exact ((mem_availableUnits I slot.date slot.shift st u).mp hx).1
    · intro f hf
      rcases (mem_flatMembers f units).mp hf with ⟨u, hu', hfu⟩
      have hx := combinations_subset _ slot.required units hu u hu'
      rw [mem_sortUnitsByLoad] at hx
      have hav := ((mem_availableUnits I slot.date slot.shift st u).mp hx).2
      exact (((unitAvailable_spec I u slot.date slot.shift st).mp hav) f hfu).2.1

/-! Exact restoration of the whole state on failure, under the freshness
discipline: the remaining slots have pairwise distinct keys and no
occupied triple already carries one of those keys. -/

theorem backtrack_exact (I : Inputs) :
    ∀ (slots : List Slot), (slots.map slotKey).Nodup →
      ∀ (st : SearchState), AssignedFresh st slots →
        (backtrack I slots st).1 = false → (backtrack I slots st).2 = st := by
  intro slots
  induction slots with
  | nil => intro _ st _ h; simp [backtrack] at h
  | cons slot rest ih =>
    intro hkeys st hfr h
    rw [List.map_cons] at hkeys
    rcases List.nodup_cons.mp hkeys with ⟨hhead, htail⟩
    simp only [backtrack] at h ⊢
    have aux : ∀ cs : List (List AssignUnit),
        (goCombos (fun st1 => backtrack I rest st1) slot.date slot.shift cs st).1 = false →
        (goCombos (fun st1 => backtrack I rest st1) slot.date slot.shift cs st).2 = st := by
      intro cs
      induction cs with
      | nil => intro _; rfl
      | cons units cs ihc =>
        intro hc
        simp only [goCombos] at hc ⊢
        by_cases hnd : (flatMembers units).Nodup
        · rw [if_pos hnd] at hc ⊢
          have hfr1 : ∀ f ∈ flatMembers units, (slot.date, slot.shift, f) ∉ st.assigned := by
            intro f _ hmem
            exact hfr _ hmem (List.mem_cons_self _ _)
          have hfr2 : AssignedFresh (commitUnits slot.date slot.shift units st) rest := by
            intro t ht
            rw [commit_assigned_mem] at ht
            rcases ht with hold | ⟨f, _, rfl⟩
            · intro hmem
              exact hfr t hold (List.mem_cons_of_mem _ hmem)
            · intro hmem
              exact hhead hmem
          rcases hp : backtrack I rest (commitUnits slot.date slot.shift units st)
            with ⟨b, st2⟩
          rw [hp] at hc
          cases b
          · simp only [Bool.false_eq_true, if_false] at hc ⊢
            have hex : st2 = commitUnits slot.date slot.shift units st := by
              have h0 := ih htail (commitUnits slot.date slot.shift units st) hfr2
                (by rw [hp])
              rw [hp] at h0
              exact h0
            have hrb : rollbackUnits slot.date slot.shift units st2 = st := by
              rw [hex]
              exact rollback_commit_exact _ _ units st hnd hfr1
            rw [hrb] at hc ⊢
            exact ihc hc
          · simp at hc
        · rw [if_neg hnd] at hc ⊢
          exact ihc hc
    exact aux _ h

/-! The invariant relating the occupied-slot set to the record list:
no double half-day booking, exact correspondence of triples and records,
distinct record keys, duplicate-free records. -/

/-- Bundle of the occupied-slot invariants preserved by a successful
search. -/
def SlotSetInv (st : SearchState) : Prop :=
  NoBothHalves st.assigned ∧ CorrState st ∧
    (st.assignment.map recKey).Nodup ∧ RecordsNodup st

theorem SlotSetInv_zero : SlotSetInv zeroState := by
  refine ⟨?_, ?_, ?_, ?_⟩
  · rintro d f ⟨h, -⟩; exact absurd h (List.not_mem_nil _)
  · intro d s f
    constructor
    · intro h; exact absurd h (List.not_mem_nil _)
    · rintro ⟨rec, h, -⟩; exact absurd h (List.not_mem_nil _)
  · simp [zeroState]
  · intro rec h; exact absurd h (List.not_mem_nil _)

theorem SlotSetInv_commit (d : Date) (s : Shift) (units : List AssignUnit)
    (st : SearchState) (hinv : SlotSetInv st) (hnd : (flatMembers units).Nodup)
    (hother : ∀ f ∈ flatMembers units, (d, s.other, f) ∉ st.assigned)
    (hrk : (d, s) ∉ st.assignment.map recKey) :
    SlotSetInv (commitUnits d s units st) := by
  obtain ⟨hnb, hcorr, hkeys, hrn⟩ := hinv
  refine ⟨?_, ?_, ?_, ?_⟩
  · intro d0 f0 hboth
    obtain ⟨h1, h2⟩ := hboth
    rw [commit_assigned_mem] at h1 h2
    rcases h1 with h1 | ⟨f1, hf1, heq1⟩
    · rcases h2 with h2 | ⟨f2, hf2, heq2⟩
      · exact hnb d0 f0 ⟨h1, h2⟩
      · have hd : d0 = d := by simpa using congrArg (fun t => t.1) heq2
        have hs : Shift.secondHalf = s := by simpa using congrArg (fun t => t.2.1) heq2
        have hfeq : f0 = f2 := by simpa using congrArg (fun t => t.2.2) heq2
        have hso : s.other = Shift.firstHalf := by rw [← hs]; rfl
        apply hother f2 hf2
        rw [hso, ← hd, ← hfeq]
        exact h1
    · rcases h2 with h2 | ⟨f2, hf2, heq2⟩
      · have hd : d0 = d := by simpa using congrArg (fun t => t.1) heq1
        have hs : Shift.firstHalf = s := by simpa using congrArg (fun t => t.2.1) heq1
        have hfeq : f0 = f1 := by simpa using congrArg (fun t => t.2.2) heq1
        have hso : s.other = Shift.secondHalf := by rw [← hs]; rfl
        apply hother f1 hf1
        rw [hso, ← hd, ← hfeq]
        exact h2
      · have hs1 : Shift.firstHalf = s := by simpa using congrArg (fun t => t.2.1) heq1
        have hs2 : Shift.secondHalf = s := by simpa using congrArg (fun t => t.2.1) heq2
        rw [← hs2] at hs1
        exact absurd hs1 (by simp)
  · intro d0 s0 f0
    rw [commit_assigned_mem, commit_assignment]
    constructor
    · rintro (hold | ⟨f, hf, heq⟩)
      · rcases (hcorr d0 s0 f0).mp hold with ⟨rec, hrec, hd, hs, hfm⟩
        exact ⟨rec, List.mem_append_left _ hrec, hd, hs, hfm⟩
      · have hd : d0 = d := by simpa using congrArg (fun t => t.1) heq
        have hs : s0 = s := by simpa using congrArg (fun t => t.2.1) heq
        have hfeq : f0 = f := by simpa using congrArg (fun t => t.2.2) heq
        refine ⟨⟨d, s, flatMembers units⟩,
          List.mem_append_right _ (List.mem_singleton_self _), hd.symm, hs.symm, ?_⟩
        rw [hfeq]
        exact hf
    · rintro ⟨rec, hrec, hd, hs, hfm⟩
      rcases List.mem_append.mp hrec with hold | hnew
      · exact Or.inl ((hcorr d0 s0 f0).mpr ⟨rec, hold, hd, hs, hfm⟩)
      · rw [List.mem_singleton] at hnew
        subst hnew
        refine Or.inr ⟨f0, hfm, ?_⟩
        have hd' : d = d0 := hd
        have hs' : s = s0 := hs
        rw [hd', hs']
  · rw [commit_assignment, List.map_append]
    have hsing : List.map recKey [(⟨d, s, flatMembers units⟩ : SlotRecord)] = [(d, s)] := rfl
    rw [hsing]
    apply List.Nodup.append hkeys (List.nodup_singleton _)
    intro k hk hk'
    rw [List.mem_singleton] at hk'
    subst hk'
    exact hrk hk
  · intro rec hrec
    rw [commit_assignment] at hrec
    rcases List.mem_append.mp hrec with hold | hnew
    · exact hrn rec hold
    · rw [List.mem_singleton] at hnew
      subst hnew
      exact hnd

theorem backtrack_Q (I : Inputs) :
    ∀ (slots : List Slot), (slots.map slotKey).Nodup →
      ∀ (st : SearchState), AssignedFresh st slots → RecordsFresh st slots →
        SlotSetInv st → (backtrack I slots st).1 = true →
        SlotSetInv (backtrack I slots st).2 := by
  intro slots
  induction slots with
  | nil => intro _ st _ _ hinv _; exact hinv
  | cons slot rest ih =>
    intro hkeys st hfr hrf hinv h
    rw [List.map_cons] at hkeys
    rcases List.nodup_cons.mp hkeys with ⟨hhead, htail⟩
    simp only [backtrack] at h ⊢
    have aux : ∀ cs : List (List AssignUnit),
        (∀ units ∈ cs, ∀ f ∈ flatMembers units,
          (slot.date, slot.shift.other, f) ∉ st.assigned) →
        (goCombos (fun st1 => backtrack I rest st1) slot.date slot.shift cs st).1 = true →
        SlotSetInv (goCombos (fun st1 => backtrack I rest st1) slot.date slot.shift cs st).2 := by
      intro cs
      induction cs with
      | nil => intro _ hc; simp [goCombos] at hc
      | cons units cs ihc =>
        intro hav hc
        simp only [goCombos] at hc ⊢
        by_cases hnd : (flatMembers units).Nodup
        · rw [if_pos hnd] at hc ⊢
          have hother := hav units (List.mem_cons_self _ _)
          have hrk : (slot.date, slot.shift) ∉ st.assignment.map recKey := by
            intro hmem
            rcases List.mem_map.mp hmem with ⟨rec, hrec, hkey⟩
            exact hrf rec hrec (by rw [hkey]; exact List.mem_cons_self _ _)
          have hinv1 : SlotSetInv (commitUnits slot.date slot.shift units st) :=
            SlotSetInv_commit slot.date slot.shift units st hinv hnd hother hrk
          have hfr1 : ∀ f ∈ flatMembers units, (slot.date, slot.shift, f) ∉ st.assigned := by
            intro f _ hmem
            exact hfr _ hmem (List.mem_cons_self _ _)
          have hfr2 : AssignedFresh (commitUnits slot.date slot.shift units st) rest := by
            intro t ht
            rw [commit_assigned_mem] at ht
            rcases ht with hold | ⟨f, _, rfl⟩
            · intro hmem
              exact hfr t hold (List.mem_cons_of_mem _ hmem)
            · intro hmem
              exact hhead hmem
          have hrf2 : RecordsFresh (commitUnits slot.date slot.shift units st) rest := by
            intro rec hrec
            rw [commit_assignment] at hrec
            rcases List.mem_append.mp hrec with hold | hnew
            · intro hmem
              exact hrf rec hold (List.mem_cons_of_mem _ hmem)
            · rw [List.mem_singleton] at hnew
              subst hnew
              intro hmem
              exact hhead hmem
          rcases hp : backtrack I rest (commitUnits slot.date slot.shift units st)
            with ⟨b, st2⟩
          rw [hp] at hc
          cases b
          · simp only [Bool.false_eq_true, if_false] at hc ⊢
            have hex : st2 = commitUnits slot.date slot.shift units st := by
              have h0 := backtrack_exact I rest htail
                (commitUnits slot.date slot.shift units st) hfr2 (by rw [hp])
              rw [hp] at h0
              exact h0
            have hrb : rollbackUnits slot.date slot.shift units st2 = st := by
              rw [hex]
              exact rollback_commit_exact _ _ units st hnd hfr1
            rw [hrb] at hc ⊢
            apply ihc _ hc
            intro units' hu'
            exact hav units' (List.mem_cons_of_mem _ hu')
          · simp only [if_true]
            have h0 := ih htail (commitUnits slot.date slot.shift units st)
              hfr2 hrf2 hinv1 (by rw [hp])
            rw [hp] at h0
            exact h0
        · rw [if_neg hnd] at hc ⊢
          apply ihc _ hc
          intro units' hu'
          exact hav units' (List.mem_cons_of_mem _ hu')
    apply aux _ ?_ h
    intro units hu f hf
    rcases (mem_flatMembers f units).mp hf with ⟨u, hu', hfu⟩
    have hx := combinations_subset _ slot.required units hu u hu'
    rw [mem_sortUnitsByLoad] at hx
    have hav := ((mem_availableUnits I slot.date slot.shift st u).mp hx).2
    exact (((unitAvailable_spec I u slot.date slot.shift st).mp hav) f hfu).2.2

/-! Distinctness of slot keys for schedules with distinct dates. -/

theorem mem_daySlots_date {slot : Slot} {day : ExamDay} (h : slot ∈ daySlots day) :
    slot.date = day.date := by
  by_cases h1 : day.firstHalf > 0 <;> by_cases h2 : day.secondHalf > 0 <;>
    simp [daySlots, h1, h2] at h <;>
    rcases h with rfl | rfl <;> rfl

theorem daySlots_keys_nodup (day : ExamDay) : ((daySlots day).map slotKey).Nodup := by
  by_cases h1 : day.firstHalf > 0 <;> by_cases h2 : day.secondHalf > 0 <;>
    simp [daySlots, h1, h2, slotKey]

theorem flatMap_daySlots_keys_nodup :
    ∀ (sch : List ExamDay), (sch.map ExamDay.date).Nodup →
      ((sch.flatMap daySlots).map slotKey).Nodup := by
  intro sch
  induction sch with
  | nil => intro _; simp
  | cons day rest ih =>
    intro h
    rw [List.map_cons] at h
    rcases List.nodup_cons.mp h with ⟨hhead, htail⟩
    rw [List.flatMap_cons, List.map_append]
    apply List.Nodup.append (daySlots_keys_nodup day) (ih htail)
    intro k hk1 hk2
    rcases List.mem_map.mp hk1 with ⟨slot1, hs1, rfl⟩
    rcases List.mem_map.mp hk2 with ⟨slot2, hs2, hkeq⟩
    rcases List.mem_flatMap.mp hs2 with ⟨day2, hday2, hslot2⟩
    apply hhead
    have hd1 : slot1.date = day.date := mem_daySlots_date hs1
    have hd2 : slot2.date = day2.date := mem_daySlots_date hslot2
    have : slot2.date = slot1.date := by
      have := congrArg (fun t => t.1) hkeq
      simpa [slotKey] using this
    rw [List.mem_map]
    exact ⟨day2, hday2, by rw [← hd2, this, hd1]⟩

theorem slotsSorted_keys_nodup (I : Inputs)
    (hd : (I.schedule.map ExamDay.date).Nodup) :
    ((slotsSorted I).map slotKey).Nodup := by
  have h1 : ((slotsOf I).map slotKey).Nodup := flatMap_daySlots_keys_nodup I.schedule hd
  have hperm : List.Perm ((slotsSorted I).map slotKey) ((slotsOf I).map slotKey) :=
    (perm_insSortB _ (slotsOf I)).map slotKey
  exact hperm.nodup_iff.mpr h1

/-! The greedy fallback: selection, quota, and structure lemmas. -/

theorem chooseUnits_subset (required : Nat) :
    ∀ (l chosen : List AssignUnit) (used : List Faculty) (x : AssignUnit),
      x ∈ chooseUnits required l chosen used → x ∈ chosen ∨ x ∈ l := by
  intro l
  induction l with
  | nil => intro chosen used x hx; exact Or.inl hx
  | cons u rest ih =>
    intro chosen used x hx
    simp only [chooseUnits] at hx
    by_cases hfull : required ≤ chosen.length
    · rw [if_pos hfull] at hx
      exact Or.inl hx
    · rw [if_neg hfull] at hx
      by_cases hov : u.any (fun f => decide (f ∈ used)) = true
      · rw [if_pos hov] at hx
        rcases ih chosen used x hx with h | h
        · exact Or.inl h
        · exact Or.inr (List.mem_cons_of_mem _ h)
      · rw [if_neg hov] at hx
        rcases ih (chosen ++ [u]) (used ++ u) x hx with h | h
        · rcases List.mem_append.mp h with h' | h'
          · exact Or.inl h'
          · rw [List.mem_singleton] at h'
            exact Or.inr (h' ▸ List.mem_cons_self _ _)
        · exact Or.inr (List.mem_cons_of_mem _ h)

theorem chooseUnits_flat_nodup (required : Nat) :
    ∀ (l chosen : List AssignUnit) (used : List Faculty),
      (∀ u ∈ l, u.Nodup) → (flatMembers chosen).Nodup →
      (∀ f ∈ flatMembers chosen, f ∈ used) →
      (flatMembers (chooseUnits required l chosen used)).Nodup := by
  intro l
  induction l with
  | nil => intro chosen used _ h _; exact h
  | cons u rest ih =>
    intro chosen used hl hch hsub
    simp only [chooseUnits]
    by_cases hfull : required ≤ chosen.length
    · rw [if_pos hfull]; exact hch
    · rw [if_neg hfull]
      by_cases hov : u.any (fun f => decide (f ∈ used)) = true
      · rw [if_pos hov]
        exact ih chosen used (fun v hv => hl v (List.mem_cons_of_mem _ hv)) hch hsub
      · rw [if_neg hov]
        have hnov : ∀ f ∈ u, f ∉ used := by
          intro f hf hfu
          apply hov
          rw [List.any_eq_true]
          exact ⟨f, hf, by simpa using hfu⟩
        apply ih (chosen ++ [u]) (used ++ u)
          (fun v hv => hl v (List.mem_cons_of_mem _ hv))
        · rw [flatMembers_append]
          have hu' : flatMembers [u] = u := by simp [flatMembers]
          rw [hu']
          apply List.Nodup.append hch (hl u (List.mem_cons_self _ _))
          intro f hf hfu
          exact hnov f hfu (hsub f hf)
        · intro f hf
          rw [flatMembers_append] at hf
          have hu' : flatMembers [u] = u := by simp [flatMembers]
          rw [hu'] at hf
          rcases List.mem_append.mp hf with h | h
          · exact List.mem_append_left _ (hsub f h)
          · exact List.mem_append_right _ h

theorem assignUnits_nodup (I : Inputs) (hg : ∀ g ∈ I.groups, g.Nodup) :
    ∀ u ∈ assignUnits I, u.Nodup := by
  intro u hu
  rcases List.mem_append.mp hu with h | h
  · rcases List.mem_map.mp h with ⟨g, hgm, rfl⟩
    exact (perm_insSortB strLe g).nodup_iff.mpr (hg g hgm)
  · rcases List.mem_map.mp h with ⟨f, _, rfl⟩
    exact List.nodup_singleton f

theorem DutyMatches_commit (d : Date) (s : Shift) (units : List AssignUnit)
    (st : SearchState) (h : DutyMatches st) :
    DutyMatches (commitUnits d s units st) := by
  intro f
  rw [commit_duty, commit_assignment, recCount_append, h f]
  simp [recCount]

theorem DutyBounded_commit (I : Inputs) (d : Date) (s : Shift)
    (units : List AssignUnit) (st : SearchState) (h : DutyBounded I st)
    (hdlt : ∀ f ∈ flatMembers units, st.duty f < maxOf I f)
    (hnd : (flatMembers units).Nodup) :
    DutyBounded I (commitUnits d s units st) := by
  intro f
  rw [commit_duty]
  by_cases hf : f ∈ flatMembers units
  · have h1 := occ_le_one_of_nodup (f := f) hnd
    have h2 := hdlt f hf
    omega
  · rw [occ_eq_zero_of_not_mem hf]
    simpa using h f

theorem RecordsUnits_commit (I : Inputs) (d : Date) (s : Shift)
    (units : List AssignUnit) (st : SearchState) (h : RecordsUnits I st)
    (hcat : ∀ u ∈ units, u ∈ assignUnits I) :
    RecordsUnits I (commitUnits d s units st) := by
  intro rec hrec
  rw [commit_assignment] at hrec
  rcases List.mem_append.mp hrec with hold | hnew
  · exact h rec hold
  · rw [List.mem_singleton] at hnew
    subst hnew
    exact ⟨units, hcat, rfl⟩

theorem greedy_chosen_subset (I : Inputs) (slot : Slot) (st : SearchState) :
    ∀ u ∈ chooseUnits slot.required
        (sortUnitsByLoad st (availableUnits I slot.date slot.shift st)) [] [],
      u ∈ availableUnits I slot.date slot.shift st := by
  intro u hu
  rcases chooseUnits_subset slot.required _ [] [] u hu with h | h
  · exact absurd h (List.not_mem_nil u)
  · rw [mem_sortUnitsByLoad] at h
    exact h

theorem greedyGo_units (I : Inputs) :
    ∀ (slots : List Slot) (st : SearchState) (uf : List Underfilled),
      RecordsUnits I st → RecordsUnits I (greedyGo I slots st uf).1 := by
  intro slots
  induction slots with
  | nil => intro st uf h; exact h
  | cons slot rest ih =>
    intro st uf h
    simp only [greedyGo]
    apply ih
    apply RecordsUnits_commit I slot.date slot.shift _ st h
    intro u hu
    exact ((mem_availableUnits I slot.date slot.shift st u).mp
      (greedy_chosen_subset I slot st u hu)).1

theorem greedyGo_duty (I : Inputs) (hg : ∀ g ∈ I.groups, g.Nodup) :
    ∀ (slots : List Slot) (st : SearchState) (uf : List Underfilled),
      DutyMatches st → DutyBounded I st →
      DutyMatches (greedyGo I slots st uf).1 ∧ DutyBounded I (greedyGo I slots st uf).1 := by
  intro slots
  induction slots with
  | nil => intro st uf h1 h2; exact ⟨h1, h2⟩
  | cons slot rest ih =>
    intro st uf h1 h2
    simp only [greedyGo]
    have hnd : (flatMembers (chooseUnits slot.required
        (sortUnitsByLoad st (availableUnits I slot.date slot.shift st)) [] [])).Nodup := by
      apply chooseUnits_flat_nodup
      · intro u hu
        rw [mem_sortUnitsByLoad] at hu
        exact assignUnits_nodup I hg u
          ((mem_availableUnits I slot.date slot.shift st u).mp hu).1
      · simp [flatMembers]
      · intro f hf; simp [flatMembers] at hf
    have hdlt : ∀ f ∈ flatMembers (chooseUnits slot.required
        (sortUnitsByLoad st (availableUnits I slot.date slot.shift st)) [] []),
        st.duty f < maxOf I f := by
      intro f hf
      rcases (mem_flatMembers f _).mp hf with ⟨u, hu, hfu⟩
      have hav := ((mem_availableUnits I slot.date slot.shift st u).mp
        (greedy_chosen_subset I slot st u hu)).2
      exact (((unitAvailable_spec I u slot.date slot.shift st).mp hav) f hfu).2.1
    exact ih _ _ (DutyMatches_commit _ _ _ st h1)
      (DutyBounded_commit I _ _ _ st h2 hdlt hnd)

theorem greedyGo_keys (I : Inputs) :
    ∀ (slots : List Slot) (st : SearchState) (uf : List Underfilled),
      (greedyGo I slots st uf).1.assignment.map recKey =
        st.assignment.map recKey ++ slots.map slotKey := by
  intro slots
  induction slots with
  | nil => intro st uf; simp [greedyGo]
  | cons slot rest ih =>
    intro st uf
    simp only [greedyGo]
    rw [ih, commit_assignment, List.map_append, List.map_cons]
    simp [recKey, slotKey]

theorem greedyGo_uf (I : Inputs) :
    ∀ (slots : List Slot) (st : SearchState) (uf : List Underfilled),
      (∀ e ∈ uf, e.assigned < e.required) →
      ∀ e ∈ (greedyGo I slots st uf).2, e.assigned < e.required := by
  intro slots
  induction slots with
  | nil => intro st uf h; exact h
  | cons slot rest ih =>
    intro st uf h
    simp only [greedyGo]
    apply ih
    by_cases hc : (chooseUnits slot.required
        (sortUnitsByLoad st (availableUnits I slot.date slot.shift st)) [] []).length <
        slot.required
    · rw [if_pos hc]
      intro e he
      rcases List.mem_append.mp he with hold | hnew
      · exact h e hold
      · rw [List.mem_singleton] at hnew
        subst hnew
        exact hc
    · rw [if_neg hc]
      exact h

/-! Case analysis of `generateAssignments`. -/

theorem generate_gate_none (I : Inputs) (h : gateInfeasible I = true) :
    generateAssignments I = none := by
  simp [generateAssignments, h]

theorem generate_solver_eq (I : Inputs) (hgate : gateInfeasible I = false)
    {st : SearchState} (hbt : backtrack I (slotsSorted I) zeroState = (true, st)) :
    generateAssignments I = some (rowsOfRecords st.assignment, []) := by
  simp only [generateAssignments, hgate, Bool.false_eq_true, if_false, hbt]

theorem generate_fallback_eq (I : Inputs) (hgate : gateInfeasible I = false)
    (hbt : (backtrack I (slotsSorted I) zeroState).1 = false) :
    generateAssignments I =
      (if (greedyGo I (slotsSorted I) zeroState []).1.assignment.isEmpty then none
       else some (rowsOfRecords (greedyGo I (slotsSorted I) zeroState []).1.assignment,
         (greedyGo I (slotsSorted I) zeroState []).2)) := by
  rcases hb : backtrack I (slotsSorted I) zeroState with ⟨b, st⟩
  rw [hb] at hbt
  cases b
  · simp only [generateAssignments, hgate, Bool.false_eq_true, if_false, hb]
  · simp at hbt

theorem generate_some_cases (I : Inputs) (rows : List Row) (uf : List Underfilled)
    (h : generateAssignments I = some (rows, uf)) :
    (∃ st, backtrack I (slotsSorted I) zeroState = (true, st) ∧
      rows = rowsOfRecords st.assignment ∧ uf = []) ∨
    ((backtrack I (slotsSorted I) zeroState).1 = false ∧
      rows = rowsOfRecords (greedyGo I (slotsSorted I) zeroState []).1.assignment ∧
      uf = (greedyGo I (slotsSorted I) zeroState []).2) := by
  by_cases hg : gateInfeasible I = true
  · rw [generate_gate_none I hg] at h
    exact absurd h (by simp)
  · have hg' : gateInfeasible I = false := by simpa using hg
    rcases hb : backtrack I (slotsSorted I) zeroState with ⟨b, st⟩
    cases b
    · right
      have he := generate_fallback_eq I hg' (by rw [hb])
      rw [he] at h
      by_cases hemp : (greedyGo I (slotsSorted I) zeroState []).1.assignment.isEmpty
      · rw [if_pos hemp] at h
        exact absurd h (by simp)
      · rw [if_neg hemp] at h
        have hp := Option.some.inj h
        refine ⟨rfl, ?_, ?_⟩
        · exact (congrArg Prod.fst hp).symm
        · exact (congrArg Prod.snd hp).symm
    · left
      have he := generate_solver_eq I hg' hb
      rw [he] at h
      have hp := Option.some.inj h
      exact ⟨st, rfl, (congrArg Prod.fst hp).symm, (congrArg Prod.snd hp).symm⟩

/-! Relating the output rows to the internal slot records. -/

theorem mem_rowsOfRecords (recs : List SlotRecord) (d : Date) (s : Shift) (f : Faculty) :
    (⟨d, s, f⟩ : Row) ∈ rowsOfRecords recs ↔
      ∃ rec ∈ recs, rec.date = d ∧ rec.shift = s ∧ f ∈ rec.faculty := by
  induction recs with
  | nil => simp [rowsOfRecords]
  | cons rec rest ih =>
    simp only [rowsOfRecords, List.mem_append, ih, List.mem_map, List.mem_cons]
    constructor
    · rintro (⟨x, hx, heq⟩ | ⟨rec', hrec', hd, hs, hf⟩)
      · have hd : rec.date = d := congrArg Row.date heq
        have hs : rec.shift = s := congrArg Row.shift heq
        have hf : x = f := congrArg Row.faculty heq
        exact ⟨rec, Or.inl rfl, hd, hs, hf ▸ hx⟩
      · exact ⟨rec', Or.inr hrec', hd, hs, hf⟩
    · rintro ⟨rec', (rfl | hrec'), hd, hs, hf⟩
      · exact Or.inl ⟨f, hf, by rw [hd, hs]⟩
      · exact Or.inr ⟨rec', hrec', hd, hs, hf⟩

theorem rowCountF_append (r1 r2 : List Row) (f : Faculty) :
    rowCountF (r1 ++ r2) f = rowCountF r1 f + rowCountF r2 f := by
  simp [rowCountF, List.filter_append]

theorem recCount_cons (f : Faculty) (rec : SlotRecord) (rest : List SlotRecord) :
    recCount f (rec :: rest) = occ f rec.faculty + recCount f rest := by
  simp [recCount]

theorem rowCountF_rowsOfRecords (f : Faculty) :
    ∀ (recs : List SlotRecord), rowCountF (rowsOfRecords recs) f = recCount f recs := by
  intro recs
  induction recs with
  | nil => rfl
  | cons rec rest ih =>
    rw [show rowsOfRecords (rec :: rest) =
        rec.faculty.map (fun g => ⟨rec.date, rec.shift, g⟩) ++ rowsOfRecords rest from rfl,
      rowCountF_append, ih, recCount_cons]
    congr 1
    rw [rowCountF, List.filter_map, List.length_map]
    rfl

theorem facultyAt_append (r1 r2 : List Row) (d : Date) (s : Shift) :
    facultyAt (r1 ++ r2) d s = facultyAt r1 d s ++ facultyAt r2 d s := by
  simp [facultyAt, List.filter_append]

theorem facultyAt_block (rec : SlotRecord) (d : Date) (s : Shift) :
    facultyAt (rec.faculty.map (fun f => ⟨rec.date, rec.shift, f⟩)) d s =
      if rec.date = d ∧ rec.shift = s then rec.faculty else [] := by
  rw [facultyAt, List.filter_map]
  by_cases hds : rec.date = d ∧ rec.shift = s
  · rw [if_pos hds]
    obtain ⟨hd, hs⟩ := hds
    have hp : ((fun r => decide (Row.date r = d) && decide (Row.shift r = s)) ∘
        fun f => (⟨rec.date, rec.shift, f⟩ : Row)) = fun _ => true := by
      funext x
      simp [Function.comp, hd, hs]
    rw [hp]
    simp
    have hcomp : ((fun x : Row => x.faculty) ∘
        fun f => ({ date := rec.date, shift := rec.shift, faculty := f } : Row)) = id := rfl
    rw [hcomp, List.map_id]
  · rw [if_neg hds]
    have hp : ((fun r => decide (Row.date r = d) && decide (Row.shift r = s)) ∘
        fun f => (⟨rec.date, rec.shift, f⟩ : Row)) = fun _ => false := by
      funext x
      rcases not_and_or.mp hds with h | h <;> simp [Function.comp, h]
    rw [hp]
    simp

theorem facultyAt_rowsOfRecords_nil (d : Date) (s : Shift) :
    ∀ (recs : List SlotRecord), (∀ rec ∈ recs, ¬(rec.date = d ∧ rec.shift = s)) →
      facultyAt (rowsOfRecords recs) d s = [] := by
  intro recs
  induction recs with
  | nil => intro _; rfl
  | cons rec rest ih =>
    intro h
    rw [show rowsOfRecords (rec :: rest) =
        rec.faculty.map (fun g => ⟨rec.date, rec.shift, g⟩) ++ rowsOfRecords rest from rfl,
      facultyAt_append, facultyAt_block, if_neg (h rec (List.mem_cons_self _ _)),
      ih (fun rec' hrec' => h rec' (List.mem_cons_of_mem _ hrec'))]
    rfl

theorem facultyAt_rowsOfRecords_nodup (d : Date) (s : Shift) :
    ∀ (recs : List SlotRecord), (recs.map recKey).Nodup →
      (∀ rec ∈ recs, rec.faculty.Nodup) →
      (facultyAt (rowsOfRecords recs) d s).Nodup := by
  intro recs
  induction recs with
  | nil => intro _ _; simp [rowsOfRecords, facultyAt]
  | cons rec rest ih =>
    intro hkeys hrn
    rw [List.map_cons] at hkeys
    rcases List.nodup_cons.mp hkeys with ⟨hhead, htail⟩
    rw [show rowsOfRecords (rec :: rest) =
        rec.faculty.map (fun g => ⟨rec.date, rec.shift, g⟩) ++ rowsOfRecords rest from rfl,
      facultyAt_append, facultyAt_block]
    by_cases hds : rec.date = d ∧ rec.shift = s
    · rw [if_pos hds]
      have htl : facultyAt (rowsOfRecords rest) d s = [] := by
        apply facultyAt_rowsOfRecords_nil
        rintro rec' hrec' ⟨hd', hs'⟩
        apply hhead
        rw [List.mem_map]
        refine ⟨rec', hrec', ?_⟩
        show (rec'.date, rec'.shift) = (rec.date, rec.shift)
        rw [hd', hs', hds.1, hds.2]
      rw [htl, List.append_nil]
      exact hrn rec (List.mem_cons_self _ _)
    · rw [if_neg hds, List.nil_append]
      exact ih htail (fun rec' hrec' => hrn rec' (List.mem_cons_of_mem _ hrec'))

/-! The unit catalog seen from a grouped member. -/

theorem mem_groupedSet (I : Inputs) (f : Faculty) :
    f ∈ groupedSet I ↔ ∃ g ∈ I.groups, f ∈ g := by
  simp [groupedSet]

theorem mem_sortFaculty (g : List Faculty) (f : Faculty) :
    f ∈ sortFaculty g ↔ f ∈ g := mem_insSortB strLe g f

theorem mem_assignUnits_cases (I : Inputs) (u : AssignUnit) (h : u ∈ assignUnits I) :
    (∃ g ∈ I.groups, u = sortFaculty g) ∨
      (∃ f, f ∈ I.facultyList ∧ f ∉ groupedSet I ∧ u = [f]) := by
  rcases List.mem_append.mp h with h' | h'
  · rcases List.mem_map.mp h' with ⟨g, hgm, rfl⟩
    exact Or.inl ⟨g, hgm, rfl⟩
  · rcases List.mem_map.mp h' with ⟨f, hfm, rfl⟩
    rcases List.mem_filter.mp hfm with ⟨hfl, hfg⟩
    exact Or.inr ⟨f, hfl, by simpa using hfg, rfl⟩

theorem pairwise_disjoint_eq {l : List (List Faculty)}
    (hp : l.Pairwise fun g1 g2 => ∀ f ∈ g1, f ∉ g2) :
    ∀ {G g : List Faculty}, G ∈ l → g ∈ l → ∀ {f : Faculty}, f ∈ G → f ∈ g → G = g := by
  induction l with
  | nil => intro G g hG _ _ _ _; exact absurd hG (List.not_mem_nil G)
  | cons a t ih =>
    intro G g hG hg f hfG hfg
    rcases List.pairwise_cons.mp hp with ⟨ha, ht⟩
    rcases List.mem_cons.mp hG with rfl | hG'
    · rcases List.mem_cons.mp hg with rfl | hg'
      · rfl
      · exact absurd hfg (ha g hg' f hfG)
    · rcases List.mem_cons.mp hg with rfl | hg'
      · exact absurd hfG (ha G hG' f hfg)
      · exact ih ht hG' hg' hfG hfg

theorem unit_containing_grouped (I : Inputs)
    (hdisj : I.groups.Pairwise fun g1 g2 => ∀ f ∈ g1, f ∉ g2)
    {G : List Faculty} (hG : G ∈ I.groups) {f : Faculty} (hf : f ∈ G)
    {u : AssignUnit} (hu : u ∈ assignUnits I) (hfu : f ∈ u) :
    u = sortFaculty G := by
  rcases mem_assignUnits_cases I u hu with ⟨g, hgm, rfl⟩ | ⟨f', _, hf'ng, rfl⟩
  · have hfg : f ∈ g := (mem_sortFaculty g f).mp hfu
    have : G = g := pairwise_disjoint_eq hdisj hG hgm hf hfg
    rw [this]
  · rw [List.mem_singleton] at hfu
    subst hfu
    exact absurd ((mem_groupedSet I f).mpr ⟨G, hG, hf⟩) hf'ng

/-! Validator lemmas: the shape of each check's messages and the exact
content of the double-booking list. -/

theorem doubleBooked_not_mem_checkUnavail (f : Faculty) (d : Date) (rows : List Row)
    (uv : List (Faculty × UnavailEntry)) :
    VError.doubleBooked f d ∉ checkUnavail rows uv := by
  intro hmem
  rcases List.mem_filterMap.mp hmem with ⟨r, _, heq⟩
  rcases hlk : lookupPairs uv r.faculty with _ | e <;> rw [hlk] at heq
  · exact absurd heq (by simp)
  · split at heq <;> simp at heq

theorem doubleBooked_not_mem_checkMax (f : Faculty) (d : Date) (rows : List Row)
    (fl : List Faculty) (md : List (Faculty × Nat)) :
    VError.doubleBooked f d ∉ checkMax rows fl md := by
  intro hmem
  rcases List.mem_filterMap.mp hmem with ⟨f', _, heq⟩
  rcases hlk : lookupPairs md f' with _ | m <;> rw [hlk] at heq
  · exact absurd heq (by simp)
  · split at heq <;> simp at heq

theorem doubleBooked_not_mem_checkGroups (f : Faculty) (d : Date) (rows : List Row)
    (gs : List (List Faculty)) :
    VError.doubleBooked f d ∉ checkGroups rows gs := by
  intro hmem
  rcases List.mem_flatMap.mp hmem with ⟨g, _, hmem'⟩
  rcases List.mem_filterMap.mp hmem' with ⟨r, _, heq⟩
  simp at heq

theorem doubleBooked_not_mem_checkRequired (f : Faculty) (d : Date) (rows : List Row)
    (sch : List ExamDay) :
    VError.doubleBooked f d ∉ checkRequired rows sch := by
  intro hmem
  rcases List.mem_flatMap.mp hmem with ⟨day, _, hmem'⟩
  rcases List.mem_filterMap.mp hmem' with ⟨s, _, heq⟩
  simp at heq

theorem mem_checkDouble_iff (f : Faculty) (d : Date) (rows : List Row)
    (fl : List Faculty) :
    VError.doubleBooked f d ∈ checkDouble rows fl ↔
      (f, d) ∈ sameDayDoubleList rows fl := by
  simp only [checkDouble, sameDayDoubleList, List.mem_flatMap, List.mem_map]
  constructor
  · rintro ⟨f', hf', d', hd', heq⟩
    have h1 : f' = f := by
      have := congrArg (fun e => match e with
        | VError.doubleBooked a _ => a
        | _ => f') heq
      simpa using this
    have h2 : d' = d := by
      have := congrArg (fun e => match e with
        | VError.doubleBooked _ b => b
        | _ => d') heq
      simpa using this
    exact ⟨f', hf', d', hd', by rw [h1, h2]⟩
  · rintro ⟨f', hf', d', hd', heq⟩
    have h1 : f' = f := congrArg Prod.fst heq
    have h2 : d' = d := congrArg Prod.snd heq
    exact ⟨f', hf', d', hd', by rw [h1, h2]⟩

theorem datesOfF_count (rows : List Row) (f : Faculty) (d : Date) :
    (datesOfF rows f).count d = rowCountOn rows f d := by
  induction rows with
  | nil => rfl
  | cons r rest ih =>
    simp only [datesOfF, rowCountOn] at ih ⊢
    by_cases hf : r.faculty = f <;> by_cases hd : r.date = d <;>
      simp [List.filter_cons, hf, hd, List.count_cons, beq_iff_eq, ih]

theorem mem_sameDayDoubleList_iff (rows : List Row) (fl : List Faculty)
    (f : Faculty) (d : Date) :
    (f, d) ∈ sameDayDoubleList rows fl ↔ f ∈ fl ∧ 1 < rowCountOn rows f d := by
  simp only [sameDayDoubleList, List.mem_flatMap, List.mem_map, List.mem_filter]
  constructor
  · rintro ⟨f', hf', d', ⟨hd'mem, hd'cnt⟩, heq⟩
    have h1 : f' = f := congrArg Prod.fst heq
    have h2 : d' = d := congrArg Prod.snd heq
    subst h1 h2
    rw [decide_eq_true_eq, datesOfF_count] at hd'cnt
    exact ⟨hf', hd'cnt⟩
  · rintro ⟨hf, hcnt⟩
    refine ⟨f, hf, d, ⟨?_, ?_⟩, rfl⟩
    · rw [List.mem_dedup]
      have : 0 < (datesOfF rows f).count d := by
        rw [datesOfF_count]
        omega
      exact List.count_pos_iff.mp this
    · rw [decide_eq_true_eq, datesOfF_count]
      exact hcnt

/-! The global total over days equals the total over slots. -/

theorem daySlots_required_sum (day : ExamDay) :
    ((daySlots day).map Slot.required).sum = day.firstHalf + day.secondHalf := by
  by_cases h1 : day.firstHalf > 0 <;> by_cases h2 : day.secondHalf > 0 <;>
    simp [daySlots, h1, h2] <;> omega

theorem totalRequired_eq_slots (I : Inputs) :
    ((slotsOf I).map Slot.required).sum = totalRequired I := by
  rw [slotsOf, totalRequired]
  induction I.schedule with
  | nil => rfl
  | cons day rest ih =>
    rw [List.flatMap_cons, List.map_append, List.sum_append, ih, List.map_cons,
      List.sum_cons, daySlots_required_sum]

/-! The verified claims. -/

/-- Claim C1: for every assignment produced by the backtracking solver or
the greedy fallback and every faculty member of the input list, the number
of output rows naming that member is at most their quota; and a unit is
only considered available for a slot when every member still has
remaining quota.  (Groups are sets of faculty ids, hence duplicate-free.) -/
theorem claimC1_quota_respected (I : Inputs) (rows : List Row) (uf : List Underfilled)
    (hg : ∀ g ∈ I.groups, g.Nodup)
    (h : generateAssignments I = some (rows, uf)) :
    (∀ f ∈ I.facultyList, rowCountF rows f ≤ maxOf I f) ∧
    (∀ u d s st, unitAvailable I u d s st = true → ∀ f ∈ u, st.duty f < maxOf I f) := by
  constructor
  · intro f _
    rcases generate_some_cases I rows uf h with ⟨st, hbt, hrows, -⟩ | ⟨-, hrows, -⟩
    · have hinv0 := backtrack_P I (slotsSorted I) zeroState (SolverInv_zero I)
      rw [hbt] at hinv0
      have hinv : SolverInv I st := hinv0
      obtain ⟨hm, hb, -, -⟩ := hinv
      rw [hrows, rowCountF_rowsOfRecords, ← hm f]
      exact hb f
    · obtain ⟨hm, hb⟩ := greedyGo_duty I hg (slotsSorted I) zeroState []
        (fun f => rfl) (fun f => Nat.zero_le _)
      rw [hrows, rowCountF_rowsOfRecords, ← hm f]
      exact hb f
  · intro u d s st hav f hf
    exact (((unitAvailable_spec I u d s st).mp hav) f hf).2.1

/-- Witness for C1 at a concrete input on which the solver succeeds. -/
theorem claimC1_witness :
    (∀ g ∈ inputsSolved.groups, g.Nodup) ∧
    generateAssignments inputsSolved = some ([⟨0, Shift.firstHalf, "a"⟩], []) ∧
    (∀ f ∈ inputsSolved.facultyList,
      rowCountF [⟨0, Shift.firstHalf, "a"⟩] f ≤ maxOf inputsSolved f) :=
  ⟨by decide, by decide,
    (claimC1_quota_respected inputsSolved [⟨0, Shift.firstHalf, "a"⟩] []
      (by decide) (by decide)).1⟩

/-- Claim C2: for pairwise-disjoint groups whose members are all in the
faculty list, the set of a group's members placed on any (date, shift) by
the solver or the greedy fallback is empty or the whole group: units are
whole groups or singletons and are committed atomically. -/
theorem claimC2_group_atomicity (I : Inputs) (rows : List Row) (uf : List Underfilled)
    (hdisj : I.groups.Pairwise fun g1 g2 => ∀ f ∈ g1, f ∉ g2)
    (_hsub : ∀ g ∈ I.groups, ∀ f ∈ g, f ∈ I.facultyList)
    (h : generateAssignments I = some (rows, uf)) :
    ∀ G ∈ I.groups, ∀ d s, (∃ f ∈ G, (⟨d, s, f⟩ : Row) ∈ rows) →
      ∀ f ∈ G, (⟨d, s, f⟩ : Row) ∈ rows := by
  rintro G hG d s ⟨f0, hf0G, hf0row⟩ f hf
  have hstruct : ∃ recs, rows = rowsOfRecords recs ∧
      ∀ rec ∈ recs, ∃ us, (∀ u ∈ us, u ∈ assignUnits I) ∧ rec.faculty = flatMembers us := by
    rcases generate_some_cases I rows uf h with ⟨st, hbt, hrows, -⟩ | ⟨-, hrows, -⟩
    · have hinv0 := backtrack_P I (slotsSorted I) zeroState (SolverInv_zero I)
      rw [hbt] at hinv0
      have hinv : SolverInv I st := hinv0
      exact ⟨st.assignment, hrows, hinv.2.2.1⟩
    · have h3 := greedyGo_units I (slotsSorted I) zeroState []
        (fun rec hrec => absurd hrec (List.not_mem_nil rec))
      exact ⟨_, hrows, h3⟩
  obtain ⟨recs, hrows, hru⟩ := hstruct
  subst hrows
  rcases (mem_rowsOfRecords recs d s f0).mp hf0row with ⟨rec, hrec, hd, hs, hf0m⟩
  rcases hru rec hrec with ⟨us, hcat, hflat⟩
  rw [hflat] at hf0m
  rcases (mem_flatMembers f0 us).mp hf0m with ⟨u, hus, hf0u⟩
  have hueq : u = sortFaculty G :=
    unit_containing_grouped I hdisj hG hf0G (hcat u hus) hf0u
  have hfu : f ∈ u := by
    rw [hueq, mem_sortFaculty]
    exact hf
  apply (mem_rowsOfRecords recs d s f).mpr
  refine ⟨rec, hrec, hd, hs, ?_⟩
  rw [hflat]
  exact (mem_flatMembers f us).mpr ⟨u, hus, hfu⟩

/-- Witness for C2 at a concrete input with one group of two plus a
singleton. -/
theorem claimC2_witness :
    (inputsGrouped.groups.Pairwise fun g1 g2 => ∀ f ∈ g1, f ∉ g2) ∧
    (∀ g ∈ inputsGrouped.groups, ∀ f ∈ g, f ∈ inputsGrouped.facultyList) ∧
    generateAssignments inputsGrouped =
      some ([⟨0, Shift.firstHalf, "a"⟩, ⟨0, Shift.firstHalf, "b"⟩,
        ⟨0, Shift.firstHalf, "c"⟩], []) ∧
    (∀ G ∈ inputsGrouped.groups, ∀ d s,
      (∃ f ∈ G, (⟨d, s, f⟩ : Row) ∈ ([⟨0, Shift.firstHalf, "a"⟩,
        ⟨0, Shift.firstHalf, "b"⟩, ⟨0, Shift.firstHalf, "c"⟩] : List Row)) →
      ∀ f ∈ G, (⟨d, s, f⟩ : Row) ∈ ([⟨0, Shift.firstHalf, "a"⟩,
        ⟨0, Shift.firstHalf, "b"⟩, ⟨0, Shift.firstHalf, "c"⟩] : List Row)) :=
  ⟨by simp [inputsGrouped], by decide, by decide,
    claimC2_group_atomicity inputsGrouped _ [] (by simp [inputsGrouped]) (by decide)
      (by decide)⟩

/-- Claim C3: in every assignment produced by the backtracking solver (for
a schedule with distinct dates, per the data model), no faculty id is
assigned to both halves of the same date, and no faculty id appears twice
within the same (date, shift) slot. -/
theorem claimC3_solver_no_double_booking (I : Inputs)
    (hdates : (I.schedule.map ExamDay.date).Nodup)
    (st : SearchState) (hbt : backtrack I (slotsSorted I) zeroState = (true, st)) :
    (∀ d f, ¬((⟨d, Shift.firstHalf, f⟩ : Row) ∈ rowsOfRecords st.assignment ∧
      (⟨d, Shift.secondHalf, f⟩ : Row) ∈ rowsOfRecords st.assignment)) ∧
    (∀ d s, (facultyAt (rowsOfRecords st.assignment) d s).Nodup) := by
  have hkeys := slotsSorted_keys_nodup I hdates
  have hq0 := backtrack_Q I (slotsSorted I) hkeys zeroState
    (fun t ht => absurd ht (List.not_mem_nil t))
    (fun rec hrec => absurd hrec (List.not_mem_nil rec))
    SlotSetInv_zero (by rw [hbt])
  rw [hbt] at hq0
  have hq : SlotSetInv st := hq0
  obtain ⟨hnb, hcorr, hrkeys, hrn⟩ := hq
  constructor
  · rintro d f ⟨h1, h2⟩
    rcases (mem_rowsOfRecords _ d Shift.firstHalf f).mp h1 with ⟨rec1, hrec1, hd1, hs1, hf1⟩
    rcases (mem_rowsOfRecords _ d Shift.secondHalf f).mp h2 with ⟨rec2, hrec2, hd2, hs2, hf2⟩
    exact hnb d f ⟨(hcorr d Shift.firstHalf f).mpr ⟨rec1, hrec1, hd1, hs1, hf1⟩,
      (hcorr d Shift.secondHalf f).mpr ⟨rec2, hrec2, hd2, hs2, hf2⟩⟩
  · intro d s
    exact facultyAt_rowsOfRecords_nodup d s st.assignment hrkeys hrn

/-- Witness for C3 at a concrete input on which the solver succeeds. -/
theorem claimC3_witness :
    ((inputsTwoHalves.schedule.map ExamDay.date).Nodup) ∧
    backtrack inputsTwoHalves (slotsSorted inputsTwoHalves) zeroState =
      (true, (backtrack inputsTwoHalves (slotsSorted inputsTwoHalves) zeroState).2) ∧
    (∀ d f, ¬((⟨d, Shift.firstHalf, f⟩ : Row) ∈ rowsOfRecords
        (backtrack inputsTwoHalves (slotsSorted inputsTwoHalves) zeroState).2.assignment ∧
      (⟨d, Shift.secondHalf, f⟩ : Row) ∈ rowsOfRecords
        (backtrack inputsTwoHalves (slotsSorted inputsTwoHalves) zeroState).2.assignment)) := by
  have hb : backtrack inputsTwoHalves (slotsSorted inputsTwoHalves) zeroState =
      (true, (backtrack inputsTwoHalves (slotsSorted inputsTwoHalves) zeroState).2) := by
    rw [← (by decide :
      (backtrack inputsTwoHalves (slotsSorted inputsTwoHalves) zeroState).1 = true)]
  exact ⟨by decide, hb,
    (claimC3_solver_no_double_booking inputsTwoHalves (by decide) _ hb).1⟩

/-- Claim C4: if the sum of required head counts over all slots exceeds
the sum of quotas over all faculty, the feasibility diagnostics decide
the input is globally infeasible and the workflow stops before the solver
is invoked. -/
theorem claimC4_capacity_gate (I : Inputs)
    (h : totalAvailable I < ((slotsOf I).map Slot.required).sum) :
    feasDecision I = FeasDecision.globalInfeasible ∧
    dutyAssignmentWorkflow I =
      WorkflowResult.stoppedInfeasible (diagMessages I) FeasDecision.globalInfeasible := by
  rw [totalRequired_eq_slots] at h
  have h1 : feasDecision I = FeasDecision.globalInfeasible := by
    simp [feasDecision, h]
  exact ⟨h1, by simp [dutyAssignmentWorkflow, h1]⟩

/-- Witness for C4 at a concrete over-capacity input. -/
theorem claimC4_witness :
    totalAvailable inputsOverCapacity <
      ((slotsOf inputsOverCapacity).map Slot.required).sum ∧
    feasDecision inputsOverCapacity = FeasDecision.globalInfeasible ∧
    dutyAssignmentWorkflow inputsOverCapacity =
      WorkflowResult.stoppedInfeasible (diagMessages inputsOverCapacity)
        FeasDecision.globalInfeasible := by
  refine ⟨by decide, ?_, ?_⟩
  · exact (claimC4_capacity_gate inputsOverCapacity (by decide)).1
  · exact (claimC4_capacity_gate inputsOverCapacity (by decide)).2

/-- Counterexample to C5 as stated: at this input the global capacity
check fails, yet the per-slot and per-day check lines (including their
warnings) are present in the emitted diagnostics — the slot and day
checks are performed before the abort, not skipped. -/
theorem claimC5_counterexample :
    totalAvailable inputsOverCapacity < totalRequired inputsOverCapacity ∧
    feasDecision inputsOverCapacity = FeasDecision.globalInfeasible ∧
    DiagLine.slotLine 0 Shift.firstHalf 1 0 ∈ diagMessages inputsOverCapacity ∧
    DiagLine.slotWarn 0 Shift.firstHalf 1 0 ∈ diagMessages inputsOverCapacity ∧
    DiagLine.dayLine 0 1 0 ∈ diagMessages inputsOverCapacity ∧
    DiagLine.dayErr 0 1 0 ∈ diagMessages inputsOverCapacity := by
  decide

/-- Claim C5 (amended): the diagnostics are emitted in the order global
totals, then the slot check, then the day check; on a global-capacity
failure the decision is global infeasibility — taking precedence over the
slot/day decision — and the workflow stops without invoking the solver,
but the slot and day checks are still performed (their lines emitted)
before the abort. -/
theorem claimC5_check_order (I : Inputs) (h : totalAvailable I < totalRequired I) :
    diagMessages I =
      [DiagLine.totalRequiredLine (totalRequired I),
       DiagLine.totalAvailableLine (totalAvailable I)] ++ slotDiag I ++ dayDiag I ∧
    feasDecision I = FeasDecision.globalInfeasible ∧
    dutyAssignmentWorkflow I =
      WorkflowResult.stoppedInfeasible (diagMessages I) FeasDecision.globalInfeasible := by
  have h1 : feasDecision I = FeasDecision.globalInfeasible := by
    simp [feasDecision, h]
  exact ⟨rfl, h1, by simp [dutyAssignmentWorkflow, h1]⟩

/-- Witness for the amended C5. -/
theorem claimC5_witness :
    totalAvailable inputsOverCapacity < totalRequired inputsOverCapacity ∧
    feasDecision inputsOverCapacity = FeasDecision.globalInfeasible ∧
    dutyAssignmentWorkflow inputsOverCapacity =
      WorkflowResult.stoppedInfeasible (diagMessages inputsOverCapacity)
        FeasDecision.globalInfeasible :=
  ⟨by decide, (claimC5_check_order inputsOverCapacity (by decide)).2.1,
    (claimC5_check_order inputsOverCapacity (by decide)).2.2⟩

/-- Claim C6: the validator always runs all five checks without
short-circuiting (the message list is the concatenation of the five
checks' messages, in order), its overall validity boolean is false
exactly when some check produced a message, and the double-booking pairs
are returned as a separately itemized list matching the double-booking
messages. -/
theorem claimC6_validator_shape (rows : List Row) (fl : List Faculty)
    (md : List (Faculty × Nat)) (uv : List (Faculty × UnavailEntry))
    (gs : List (List Faculty)) (sch : List ExamDay) :
    (validateAssignmentConstraints rows fl md uv gs sch).errors =
      checkUnavail rows uv ++ checkMax rows fl md ++ checkGroups rows gs ++
        checkRequired rows sch ++ checkDouble rows fl ∧
    ((validateAssignmentConstraints rows fl md uv gs sch).isValid = false ↔
      (validateAssignmentConstraints rows fl md uv gs sch).errors ≠ []) ∧
    (validateAssignmentConstraints rows fl md uv gs sch).sameDayDouble =
      sameDayDoubleList rows fl ∧
    (∀ f d, (f, d) ∈ (validateAssignmentConstraints rows fl md uv gs sch).sameDayDouble ↔
      VError.doubleBooked f d ∈ (validateAssignmentConstraints rows fl md uv gs sch).errors) := by
  refine ⟨rfl, ?_, rfl, ?_⟩
  · rw [show (validateAssignmentConstraints rows fl md uv gs sch).isValid =
      (validateAssignmentConstraints rows fl md uv gs sch).errors.isEmpty from rfl]
    rcases herr : (validateAssignmentConstraints rows fl md uv gs sch).errors with _ | ⟨a, t⟩ <;>
      simp
  · intro f d
    constructor
    · intro hmem
      have h5 : (f, d) ∈ sameDayDoubleList rows fl := hmem
      have h6 : VError.doubleBooked f d ∈ checkDouble rows fl :=
        (mem_checkDouble_iff f d rows fl).mpr h5
      exact List.mem_append_right _ h6
    · intro hmem
      have h0 : VError.doubleBooked f d ∈
          checkUnavail rows uv ++ checkMax rows fl md ++ checkGroups rows gs ++
            checkRequired rows sch ++ checkDouble rows fl := hmem
      rcases List.mem_append.mp h0 with h1 | h5
      · rcases List.mem_append.mp h1 with h2 | h4
        · rcases List.mem_append.mp h2 with h3 | hb
          · rcases List.mem_append.mp h3 with ha | hb'
            · exact absurd ha (doubleBooked_not_mem_checkUnavail f d rows uv)
            · exact absurd hb' (doubleBooked_not_mem_checkMax f d rows fl md)
          · exact absurd hb (doubleBooked_not_mem_checkGroups f d rows gs)
        · exact absurd h4 (doubleBooked_not_mem_checkRequired f d rows sch)
      · exact (mem_checkDouble_iff f d rows fl).mp h5

/-- Witness for C6: the validator shape at a concrete assignment. -/
theorem claimC6_witness :
    (validateAssignmentConstraints rowsBothHalves ["a"] [("a", 5)] [] [] []).errors =
      checkUnavail rowsBothHalves [] ++ checkMax rowsBothHalves ["a"] [("a", 5)] ++
        checkGroups rowsBothHalves [] ++ checkRequired rowsBothHalves [] ++
        checkDouble rowsBothHalves ["a"] ∧
    ((validateAssignmentConstraints rowsBothHalves ["a"] [("a", 5)] [] [] []).isValid = false ↔
      (validateAssignmentConstraints rowsBothHalves ["a"] [("a", 5)] [] [] []).errors ≠ []) ∧
    (validateAssignmentConstraints rowsBothHalves ["a"] [("a", 5)] [] [] []).sameDayDouble =
      sameDayDoubleList rowsBothHalves ["a"] ∧
    (∀ f d, (f, d) ∈ (validateAssignmentConstraints rowsBothHalves ["a"]
        [("a", 5)] [] [] []).sameDayDouble ↔
      VError.doubleBooked f d ∈ (validateAssignmentConstraints rowsBothHalves ["a"]
        [("a", 5)] [] [] []).errors) :=
  claimC6_validator_shape rowsBothHalves ["a"] [("a", 5)] [] [] []

/-- Counterexample to C7 as stated: with two duplicate First-Half rows for
the same faculty member and date, the pair is reported in the structured
double-booking list although the member is never assigned to the Second
Half of that date. -/
theorem claimC7_counterexample :
    ("a", 0) ∈ (validateAssignmentConstraints rowsSameHalfTwice ["a"]
      [("a", 5)] [] [] []).sameDayDouble ∧
    (rowsSameHalfTwice.filter (fun r =>
      decide (r.faculty = "a") && decide (r.shift = Shift.secondHalf))).length = 0 := by
  decide

/-- Claim C7 (amended): the validator reports a (faculty, date) pair in
the separately returned double-booking list exactly when that faculty is
in the faculty list and has more than one assignment row on that date —
in particular when assigned to both halves, but also for duplicate rows
within one half. -/
theorem claimC7_double_booking_pairs (rows : List Row) (fl : List Faculty)
    (md : List (Faculty × Nat)) (uv : List (Faculty × UnavailEntry))
    (gs : List (List Faculty)) (sch : List ExamDay) (f : Faculty) (d : Date) :
    (f, d) ∈ (validateAssignmentConstraints rows fl md uv gs sch).sameDayDouble ↔
      f ∈ fl ∧ 1 < rowCountOn rows f d := by
  rw [show (validateAssignmentConstraints rows fl md uv gs sch).sameDayDouble =
    sameDayDoubleList rows fl from rfl]
  exact mem_sameDayDoubleList_iff rows fl f d

/-- Witness for the amended C7 at a concrete assignment. -/
theorem claimC7_witness :
    ("a", 0) ∈ (validateAssignmentConstraints rowsSameHalfTwice ["a"]
        [("a", 5)] [] [] []).sameDayDouble ↔
      "a" ∈ (["a"] : List Faculty) ∧ 1 < rowCountOn rowsSameHalfTwice "a" 0 :=
  claimC7_double_booking_pairs rowsSameHalfTwice ["a"] [("a", 5)] [] [] [] "a" 0

/-- Claim C8: once the backtracking search has failed (and the internal
gate passed), the greedy fallback processes every difficulty-sorted slot
in order — one record per slot, underfilled slots recorded with assigned
strictly below required and the pass never aborting — and the run returns
the partial assignment with the underfilled list, the empty-assignment
case being the total-failure `none` result. -/
theorem claimC8_greedy_fallback (I : Inputs)
    (hgate : gateInfeasible I = false)
    (hbt : (backtrack I (slotsSorted I) zeroState).1 = false) :
    generateAssignments I =
      (if (greedyGo I (slotsSorted I) zeroState []).1.assignment.isEmpty then none
       else some (rowsOfRecords (greedyGo I (slotsSorted I) zeroState []).1.assignment,
         (greedyGo I (slotsSorted I) zeroState []).2)) ∧
    (greedyGo I (slotsSorted I) zeroState []).1.assignment.map recKey =
      (slotsSorted I).map slotKey ∧
    (∀ e ∈ (greedyGo I (slotsSorted I) zeroState []).2, e.assigned < e.required) ∧
    (greedyGo I (slotsSorted I) zeroState []).1.assignment.isEmpty = false ∧
    generateAssignments I =
      some (rowsOfRecords (greedyGo I (slotsSorted I) zeroState []).1.assignment,
        (greedyGo I (slotsSorted I) zeroState []).2) := by
  have h1 := generate_fallback_eq I hgate hbt
  have h2 : (greedyGo I (slotsSorted I) zeroState []).1.assignment.map recKey =
      (slotsSorted I).map slotKey := by
    have := greedyGo_keys I (slotsSorted I) zeroState []
    simpa [zeroState] using this
  have h3 := greedyGo_uf I (slotsSorted I) zeroState []
    (fun e he => absurd he (List.not_mem_nil e))
  have hsnil : slotsSorted I ≠ [] := by
    intro he
    rw [he] at hbt
    simp [backtrack] at hbt
  have h4 : (greedyGo I (slotsSorted I) zeroState []).1.assignment.isEmpty = false := by
    rcases hrec : (greedyGo I (slotsSorted I) zeroState []).1.assignment with _ | ⟨r, rest⟩
    · exfalso
      rw [hrec] at h2
      exact hsnil (List.map_eq_nil_iff.mp h2.symm)
    · rfl
  refine ⟨h1, h2, h3, h4, ?_⟩
  rw [h1, h4]
  simp

/-- Witness for C8 at a concrete input where the search fails and the
greedy fallback leaves one slot underfilled. -/
theorem claimC8_witness :
    gateInfeasible inputsFallback = false ∧
    (backtrack inputsFallback (slotsSorted inputsFallback) zeroState).1 = false ∧
    generateAssignments inputsFallback =
      some (rowsOfRecords (greedyGo inputsFallback (slotsSorted inputsFallback)
          zeroState []).1.assignment,
        (greedyGo inputsFallback (slotsSorted inputsFallback) zeroState []).2) :=
  ⟨by decide, by decide,
    (claimC8_greedy_fallback inputsFallback (by decide) (by decide)).2.2.2.2⟩

/-- Claim C9: the heuristic generator is deterministic — two runs on
identical inputs (faculty order, quotas, unavailability, groups and
schedule) produce identical results, including row order; in this pure
embedding the whole run is a function of the input record. -/
theorem claimC9_deterministic (I J : Inputs) (h : I = J) :
    generateAssignments I = generateAssignments J := by
  rw [h]

/-- Witness for C9. -/
theorem claimC9_witness :
    inputsSolved = inputsSolved ∧
    generateAssignments inputsSolved = generateAssignments inputsSolved :=
  ⟨rfl, claimC9_deterministic inputsSolved inputsSolved rfl⟩

/-- Counterexample to C10 as stated: from an entry state that already
holds the triple the first slot commits, a failing search does not
restore `assigned_slots` — the set-insert was a no-op while the undo
removed the triple. -/
theorem claimC10_counterexample :
    (backtrack inputsPlain slotsUndo stateDirty).1 = false ∧
    (backtrack inputsPlain slotsUndo stateDirty).2.assigned ≠ stateDirty.assigned := by
  decide

/-- Claim C10 (amended): every tentative commit of the backtracking
search is exactly undone on failure, provided the remaining slots have
pairwise distinct (date, shift) keys and no occupied triple already
carries one of those keys — then a `False` return leaves duty counts,
occupied triples and the record list exactly as at entry.  (The duty
counts and the record list are restored even without the proviso; the
occupied-triple set needs it, as the counterexample shows.) -/
theorem claimC10_exact_undo (I : Inputs) (slots : List Slot) (st : SearchState)
    (hkeys : (slots.map slotKey).Nodup) (hfr : AssignedFresh st slots)
    (h : (backtrack I slots st).1 = false) :
    (backtrack I slots st).2 = st :=
  backtrack_exact I slots hkeys st hfr h

/-- Witness for the amended C10. -/
theorem claimC10_witness :
    ((slotsUndoOk.map slotKey).Nodup) ∧
    AssignedFresh zeroState slotsUndoOk ∧
    (backtrack inputsUndoOk slotsUndoOk zeroState).1 = false ∧
    (backtrack inputsUndoOk slotsUndoOk zeroState).2 = zeroState :=
  ⟨by decide, fun t ht => absurd ht (List.not_mem_nil t), by decide,
    claimC10_exact_undo inputsUndoOk slotsUndoOk zeroState (by decide)
      (fun t ht => absurd ht (List.not_mem_nil t)) (by decide)⟩

end ExamDuty
